import Mathlib

/-!
# HL7 segment parsing and addressing (`segment.go`)

A shallow embedding of the `Segment` type of the `hl7` package and of its
methods `Parse`, `forceField`, `encode`, `Field`, `AllFields`, `Get`, `GetAll`
and `Set`.

Conventions of the embedding:

* a `[]byte` and a Go `string` are lists of bytes (`List Nat`, every element
  below 256 in a real input); `string(b)` and `[]byte(s)` are the identity;
* a `rune` is a natural number (the code point);
* Go `int`s that can be negative (`SeqNum`, `maxSeq`, `FieldSeq`) are `Int`;
  slice indices are `Nat`;
* a method with a pointer receiver takes the segment and returns the segment
  it leaves behind together with its Go results;
* a run-time panic (slice bounds out of range) is the outcome `panic`.
-/

namespace hl7

/-- A byte slice, and equally a Go string: the list of its bytes. -/
abbrev Bytes := List Nat

/-! ## Types declared outside `segment.go` -/

/-- SubComponent, as `forceField` builds it: `SubComponent{Value: val}`. -/
structure SubComponent where
  Value : Bytes
deriving DecidableEq, Repr

/-- Component, as `forceField` builds it: a `Value` and its `SubComponents`. -/
structure Component where
  Value : Bytes
  SubComponents : List SubComponent
deriving DecidableEq, Repr

/-- Field, with the three members `segment.go` uses:
`Value`, `SeqNum` and `Components`. -/
structure Field where
  Value : Bytes
  SeqNum : Int
  Components : List Component
deriving DecidableEq, Repr

/-- Modelled from the spec: the `Delimeters` type is declared outside `src/`.
The spec's Delimiter Set holds five delimiter characters (field, repetition,
component, subcomponent, escape) and a flag for line-feed-terminated messages;
`segment.go` reads `Field`, `Repetition`, `Escape` and `LFTermMsg`. -/
structure Delimeters where
  Field : Nat
  Component : Nat
  Repetition : Nat
  Escape : Nat
  SubComponent : Nat
  LFTermMsg : Bool
deriving DecidableEq, Repr

/-- Modelled from the spec: the `Location` type is declared outside `src/`.
The spec's Location has four integer members (field sequence, repetition index,
component index, subcomponent index); `segment.go` reads `FieldSeq` only, and
`FieldSeq = -1` addresses the whole segment. -/
structure Location where
  FieldSeq : Int
  Rep : Int
  Comp : Int
  SubComp : Int
deriving DecidableEq, Repr

/-- The Go `error` values in play: the three `segment.go` creates, and any
error handed up by a field-level method. -/
inductive Err where
  | invalidSegment (len : Nat)
  | fieldNotFound
  | fieldRequired
  | fieldLevel (msg : String)
deriving DecidableEq, Repr

/-- The parts of the package that `segment.go` calls but that are declared
outside `src/`: the constant `endMsg` and the methods of `Field`.
`fieldSet` and `fieldParse` return the Field as the method leaves it
(`fieldParse` also returns an error in Go, which `Segment.Parse` drops). The
methods are taken to return: a panic inside them is outside this embedding. -/
structure Env where
  endMsg : Nat
  fieldParse : Delimeters → Field → Field
  fieldGet : Field → Location → Bytes × Option Err
  fieldSet : Field → Location → Bytes → Delimeters → Field × Option Err

/-- Modelled from the spec: the constant `eof` is declared outside `src/`.
The scan stops "on end-of-input", which `ReadRune` reports as the rune 0
(together with an error the loop drops), so `eof` is the zero rune. -/
def eof : Nat := 0

/-! ## The library routines `segment.go` relies on -/

/-- The rune `utf8.RuneError`, U+FFFD. -/
def RuneError : Nat := 0xFFFD

/-- Go's `utf8.DecodeRune`: the first rune of `p` and its width in bytes;
`(RuneError, 1)` for an invalid or truncated encoding, `(RuneError, 0)` for
empty input. Masks and shifts are written arithmetically. -/
def DecodeRune (p : Bytes) : Nat × Nat :=
  match p with
  | [] => (RuneError, 0)
  | p0 :: t =>
    if p0 < 0x80 then (p0, 1)
    else if p0 < 0xC2 then (RuneError, 1)
    else if p0 < 0xE0 then
      match t with
      | b1 :: _ =>
        if 0x80 ≤ b1 ∧ b1 ≤ 0xBF then ((p0 % 32) * 64 + b1 % 64, 2)
        else (RuneError, 1)
      | [] => (RuneError, 1)
    else if p0 < 0xF0 then
      match t with
      | b1 :: b2 :: _ =>
        if (if p0 = 0xE0 then 0xA0 else 0x80) ≤ b1
            ∧ b1 ≤ (if p0 = 0xED then 0x9F else 0xBF) then
          if 0x80 ≤ b2 ∧ b2 ≤ 0xBF then
            ((p0 % 16) * 4096 + (b1 % 64) * 64 + b2 % 64, 3)
          else (RuneError, 1)
        else (RuneError, 1)
      | _ => (RuneError, 1)
    else if p0 < 0xF5 then
      match t with
      | b1 :: b2 :: b3 :: _ =>
        if (if p0 = 0xF0 then 0x90 else 0x80) ≤ b1
            ∧ b1 ≤ (if p0 = 0xF4 then 0x8F else 0xBF) then
          if 0x80 ≤ b2 ∧ b2 ≤ 0xBF then
            if 0x80 ≤ b3 ∧ b3 ≤ 0xBF then
              ((p0 % 8) * 262144 + (b1 % 64) * 4096 + (b2 % 64) * 64 + b3 % 64, 4)
            else (RuneError, 1)
          else (RuneError, 1)
        else (RuneError, 1)
      | _ => (RuneError, 1)
    else (RuneError, 1)

/-- Go's `(*bytes.Reader).ReadRune` on a reader whose unread bytes are `rest`:
the rune read and the bytes left unread. At the end of the input the rune is 0
(Go also returns `io.EOF`, which the caller drops). -/
def ReadRune (rest : Bytes) : Nat × Bytes :=
  match rest with
  | [] => (0, [])
  | c :: t =>
    if c < 0x80 then (c, t)
    else ((DecodeRune rest).1, rest.drop (DecodeRune rest).2)

/-- Go's `[]byte(string(r))` for a rune `r`: its UTF-8 encoding, and the
encoding of U+FFFD for a surrogate or a value past U+10FFFF. -/
def runeBytes (r : Nat) : Bytes :=
  if r < 0x80 then [r]
  else if r < 0x800 then [0xC0 + r / 64, 0x80 + r % 64]
  else if 0x10FFFF < r ∨ (0xD800 ≤ r ∧ r ≤ 0xDFFF) then [0xEF, 0xBF, 0xBD]
  else if r < 0x10000 then [0xE0 + r / 4096, 0x80 + (r / 64) % 64, 0x80 + r % 64]
  else [0xF0 + r / 262144, 0x80 + (r / 4096) % 64, 0x80 + (r / 64) % 64, 0x80 + r % 64]

/-- Go's `bytes.Join`: the elements of `s` with `sep` between neighbours. -/
def bytesJoin (sep : Bytes) : List Bytes → Bytes
  | [] => []
  | [a] => a
  | a :: b :: t => a ++ sep ++ bytesJoin sep (b :: t)

/-- The slice expression `buf[lo:hi]` on a backing array `buf` (length = the
slice's capacity): `none` is the panic "slice bounds out of range". -/
def slice (buf : Bytes) (lo hi : Nat) : Option Bytes :=
  if lo ≤ hi ∧ hi ≤ buf.length then some ((buf.take hi).drop lo) else none

/-! ## Segment -/

/-- Segment is an HL7 segment. -/
structure Segment where
  Fields : List Field
  Value : Bytes
  maxSeq : Int
deriving DecidableEq, Repr

/-- How a call ends: it returns `a`, it panics, or the fuel of the embedding
ran out (which `Parse_terminates` rules out). -/
inductive Outcome (α : Type) where
  | done (a : α)
  | panic
  | exhausted
deriving DecidableEq, Repr

/-- The method `forceField`: raises `maxSeq` to `seq` if it is below, and appends
a Field of value `val` holding one Component holding one SubComponent. -/
def Segment.forceField (s : Segment) (val : Bytes) (seq : Int) : Segment :=
  { s with
    maxSeq := if seq > s.maxSeq then seq else s.maxSeq
    Fields := s.Fields ++
      [{ Value := val, SeqNum := seq,
         Components := [{ Value := val, SubComponents := [{ Value := val }] }] }] }

/-- The statements `fld := Field{Value: v, SeqNum: seq}; fld.Parse(seps);
s.Fields = append(s.Fields, fld)` of `Parse`. -/
def Segment.appendParsed (env : Env) (seps : Delimeters) (s : Segment)
    (v : Bytes) (seq : Int) : Segment :=
  { s with
    Fields := s.Fields ++ [env.fieldParse seps { Value := v, SeqNum := seq, Components := [] }] }

/-- The `for` loop of `Parse`. `buf` is the backing array of `s.Value` (its
bytes followed by the spare capacity), `rest` the unread bytes of the reader,
`i`, `ii`, `seq` the loop variables at the head of an iteration, `fuel` a bound
on the number of iterations. -/
def scan (env : Env) (seps : Delimeters) (isMSH : Bool) (buf : Bytes) :
    Nat → Bytes → Nat → Nat → Int → Segment → Outcome (Segment × Option Err)
  | 0, _, _, _, _, _ => Outcome.exhausted
  | fuel + 1, rest, i, ii, seq, s =>
    let ch := (ReadRune rest).1
    let rest1 := (ReadRune rest).2
    let ii := ii + 1
    if ch = eof ∨ (ch = env.endMsg ∧ seps.LFTermMsg = true) then
      if ii > i then
        match slice buf i (ii - 1) with
        | none => Outcome.panic
        | some v => Outcome.done (s.appendParsed env seps v seq, none)
      else Outcome.done (s, none)
    else if isMSH = true ∧ seq = 2 ∧ ch = seps.Repetition then
      scan env seps isMSH buf fuel rest1 i ii seq s
    else if isMSH = true ∧ seq = 2 ∧ ch = seps.Escape then
      scan env seps isMSH buf fuel rest1 i ii seq s
    else if ch = seps.Field then
      match slice buf i (ii - 1) with
      | none => Outcome.panic
      | some v =>
        let s1 := if isMSH = true ∧ seq = 2 then s.forceField v seq
                  else s.appendParsed env seps v seq
        if isMSH = true ∧ seq + 1 = 1 then
          scan env seps isMSH buf fuel rest1 ii ii (seq + 1 + 1)
            (s1.forceField (runeBytes seps.Field) (seq + 1))
        else
          scan env seps isMSH buf fuel rest1 ii ii (seq + 1) s1
    else if ch = seps.Repetition then
      match slice buf i (ii - 1) with
      | none => Outcome.panic
      | some v => scan env seps isMSH buf fuel rest1 ii ii seq (s.appendParsed env seps v seq)
    else if ch = seps.Escape then
      scan env seps isMSH buf fuel (ReadRune rest1).2 i (ii + 1) seq s
    else
      scan env seps isMSH buf fuel rest1 i ii seq s

/-- The method `Parse`. `spare` holds the bytes of the backing array of
`s.Value` between its length and its capacity (`[]` when `cap == len`): Go
bounds a slice expression by the capacity, so `s.Value[i : ii-1]` may reach
into them. Every iteration that goes round again has read at least one byte,
so `len(s.Value) + 1` iterations are enough. -/
def Segment.Parse (env : Env) (seps : Delimeters) (spare : Bytes) (s : Segment) :
    Outcome (Segment × Option Err) :=
  if s.Value.length < 3 then
    Outcome.done (s, some (Err.invalidSegment s.Value.length))
  else
    scan env seps (decide (s.Value.take 3 = [0x4D, 0x53, 0x48])) (s.Value ++ spare)
      (s.Value.length + 1) s.Value 0 0 0 s

/-- The method `encode`: the Values of the Fields, in stored order, joined with
the bytes of the field delimiter. -/
def Segment.encode (seps : Delimeters) (s : Segment) : Bytes :=
  bytesJoin (runeBytes seps.Field)
    (s.Fields.foldl (fun buf f => buf ++ [f.Value]) [])

/-- The loop of the method `Field` over the Fields still to be visited. -/
def findField (i : Int) : List hl7.Field → Option hl7.Field
  | [] => none
  | fld :: rest => if fld.SeqNum = i then some fld else findField i rest

/-- The method `Field`: the first Field with sequence number `i`, or the error
"Field not found". -/
def Segment.Field (s : Segment) (i : Int) : Option hl7.Field × Option Err :=
  match findField i s.Fields with
  | some fld => (some fld, none)
  | none => (none, some Err.fieldNotFound)

/-- The method `AllFields`: every Field with sequence number `i`, in stored
order, with the error "Field not found" when there is none. -/
def Segment.AllFields (s : Segment) (i : Int) : List hl7.Field × Option Err :=
  let flds := s.Fields.foldl (fun acc fld => if fld.SeqNum = i then acc ++ [fld] else acc) []
  if flds.length = 0 then (flds, some Err.fieldNotFound) else (flds, none)

/-- The method `Get`. The call `s.Field(l.FieldSeq)` gives the Field `findField`
finds, or the error "Field not found", which is returned with the empty
string. -/
def Segment.Get (env : Env) (s : Segment) (l : Location) : Bytes × Option Err :=
  if l.FieldSeq = -1 then (s.Value, none)
  else
    match findField l.FieldSeq s.Fields with
    | none => ([], some Err.fieldNotFound)
    | some fld => env.fieldGet fld l

/-- The loop of `GetAll` over the Fields still to be read, `vals` being the
values gathered so far; on an error of the field-level `Get` it returns `vals`
as it stands, with the error. -/
def getAllLoop (env : Env) (l : Location) : List hl7.Field → List Bytes → List Bytes × Option Err
  | [], vals => (vals, none)
  | f :: rest, vals =>
    match env.fieldGet f l with
    | (_, some err) => (vals, some err)
    | (v, none) => getAllLoop env l rest (vals ++ [v])

/-- The method `GetAll`. When `AllFields` fails, `vals` is still empty. -/
def Segment.GetAll (env : Env) (s : Segment) (l : Location) : List Bytes × Option Err :=
  if l.FieldSeq = -1 then ([] ++ [s.Value], none)
  else
    match s.AllFields l.FieldSeq with
    | (_, some err) => ([], some err)
    | (flds, none) => getAllLoop env l flds []

/-- The loop `for i := start; i <= ...; i++ { s.forceField([]byte(""), i) }` of
`Set`, run for `n` iterations. -/
def forceGap : Nat → Int → Segment → Segment
  | 0, _, s => s
  | n + 1, start, s => forceGap n (start + 1) (s.forceField [] start)

/-- The assignment through the pointer `&s.Fields[idx]` that `Field` returned:
the first Field with sequence number `i` is replaced by `g`. -/
def replaceFirst (i : Int) (g : hl7.Field) : List hl7.Field → List hl7.Field
  | [] => []
  | fld :: rest => if fld.SeqNum = i then g :: rest else fld :: replaceFirst i g rest

/-- The method `Set`. The call `s.Field(l.FieldSeq)` gives the Field `findField`
finds, or the error "Field not found". The field-level `Set` writes through
the pointer into `s.Fields`, so the Field it leaves replaces the one found,
whether or not it returns an error. -/
def Segment.Set (env : Env) (s : Segment) (l : Location) (val : Bytes) (seps : Delimeters) :
    Segment × Option Err :=
  if l.FieldSeq = -1 then (s, some Err.fieldRequired)
  else
    let s1 := if s.maxSeq < l.FieldSeq
      then forceGap (l.FieldSeq - s.maxSeq).toNat (s.maxSeq + 1) s else s
    match findField l.FieldSeq s1.Fields with
    | none => (s1, some Err.fieldNotFound)
    | some fld =>
      let s2 := { s1 with Fields := replaceFirst l.FieldSeq (env.fieldSet fld l val seps).1 s1.Fields }
      match (env.fieldSet fld l val seps).2 with
      | some err => (s2, some err)
      | none => ({ s2 with Value := s2.encode seps }, none)

/-! ## A concrete environment for evaluating the methods -/

/-- Modelled from the spec: `Field.Parse` and `Component.Parse` are declared
outside `src/`. The spec gives both levels "the identical delimiter-split-and-
escape-skip logic one level down": the value is cut at each delimiter `d`, the
byte after an escape character is skipped, and the last piece ends with the
slice. `cur` is the piece being gathered. -/
def splitEsc (d esc : Nat) : Bytes → Bytes → List Bytes
  | [], cur => [cur]
  | [c], cur => if c = d then [cur, []] else [cur ++ [c]]
  | c :: c2 :: t, cur =>
    if c = d then cur :: splitEsc d esc (c2 :: t) []
    else if c = esc then splitEsc d esc t (cur ++ [c, c2])
    else splitEsc d esc (c2 :: t) (cur ++ [c])

/-- Modelled from the spec: `Field.Parse` is declared outside `src/`. Per the
spec a Field splits its value on the component delimiter and each Component on
the subcomponent delimiter, a SubComponent storing its slice verbatim; the
Field's own `Value` and `SeqNum` are left as they are. -/
def specFieldParse (seps : Delimeters) (f : Field) : Field :=
  { f with
    Components := (splitEsc seps.Component seps.Escape f.Value []).map fun v =>
      { Value := v,
        SubComponents := (splitEsc seps.SubComponent seps.Escape v []).map fun w =>
          { Value := w } } }

/-- Modelled from the spec: `Field.Get` is declared outside `src/`. Per the spec
it resolves "component/subcomponent indices", 1-based, -1 meaning "not
specified": without a component index the Field's value, otherwise the value of
that Component or of the SubComponent named inside it, or a field-level error
when there is none. -/
def specFieldGet (f : Field) (l : Location) : Bytes × Option Err :=
  if l.Comp = -1 then (f.Value, none)
  else
    match f.Components.get? (l.Comp.toNat - 1) with
    | none => ([], some (Err.fieldLevel "Component not found"))
    | some c =>
      if l.SubComp = -1 then (c.Value, none)
      else
        match c.SubComponents.get? (l.SubComp.toNat - 1) with
        | none => ([], some (Err.fieldLevel "SubComponent not found"))
        | some sc => (sc.Value, none)

/-- Modelled from the spec: `Field.Set` is declared outside `src/`; the spec
says only that `Segment.Set` "delegates the component/subcomponent-level write"
to the Field. This instance carries out the write that names no component (the
Field's value becomes `val` and is parsed again, `SeqNum` kept) and reports a
field-level error, leaving the Field alone, for any deeper location. -/
def specFieldSet (f : Field) (l : Location) (val : Bytes) (seps : Delimeters) :
    Field × Option Err :=
  if l.Comp = -1 then
    (specFieldParse seps { Value := val, SeqNum := f.SeqNum, Components := [] }, none)
  else (f, some (Err.fieldLevel "component write"))

/-- The environment made of the spec-modelled field methods, with the
end-of-message character 0x1C. Theorems that hold for every environment are
stated for every environment; this one serves to run the methods on concrete
inputs. -/
def specEnv : Env :=
  { endMsg := 0x1C
    fieldParse := specFieldParse
    fieldGet := specFieldGet
    fieldSet := specFieldSet }

/-- The usual HL7 delimiters `|^~\&`, with the line-feed-termination flag set. -/
def stdSeps : Delimeters :=
  { Field := 0x7C, Component := 0x5E, Repetition := 0x7E, Escape := 0x5C,
    SubComponent := 0x26, LFTermMsg := true }

/-- The bytes of a string literal whose characters are all ASCII. -/
def ascii (str : String) : Bytes := str.toList.map fun c => c.toNat

/-- A fresh segment holding the raw value `v`: only `Value` is set, there is no
Field yet and `maxSeq` is 0. -/
def fresh (v : Bytes) : Segment := { Fields := [], Value := v, maxSeq := 0 }

/-- The location that names field sequence `n` and nothing below it. -/
def fieldLoc (n : Int) : Location := { FieldSeq := n, Rep := -1, Comp := -1, SubComp := -1 }

/-! ## Notions used to state the properties -/

/-- A byte that the loop reads as one rune of the same value and does not take
for the end of the input: ASCII, not NUL, and not the end-of-message character
when the line-feed-termination flag is set. -/
def plain (env : Env) (seps : Delimeters) (b : Nat) : Prop :=
  b < 0x80 ∧ b ≠ 0 ∧ (seps.LFTermMsg = true → b ≠ env.endMsg)

instance (env : Env) (seps : Delimeters) (b : Nat) : Decidable (plain env seps b) :=
  inferInstanceAs (Decidable (b < 0x80 ∧ b ≠ 0 ∧ (seps.LFTermMsg = true → b ≠ env.endMsg)))

/-- A piece of text with no structure at the segment level: it holds no
unescaped field or repetition delimiter, and each escape character in it is
followed by a byte (which the escape hides). -/
def atom (seps : Delimeters) : Bytes → Bool
  | [] => true
  | c :: t =>
    if c = seps.Field ∨ c = seps.Repetition then false
    else if c = seps.Escape then
      match t with
      | [] => false
      | _ :: t2 => atom seps t2
    else atom seps t

/-- The Field that `Parse` appends for the slice `v` at sequence `seq`. -/
def parsedField (env : Env) (seps : Delimeters) (v : Bytes) (seq : Int) : Field :=
  env.fieldParse seps { Value := v, SeqNum := seq, Components := [] }

/-- The Field that `forceField` appends for `val` at sequence `seq`. -/
def forcedField (val : Bytes) (seq : Int) : Field :=
  { Value := val, SeqNum := seq,
    Components := [{ Value := val, SubComponents := [{ Value := val }] }] }

/-- `Grows env seps seq s t`: `t` is `s` with Fields appended, each of them parsed
or forced in at a sequence number of at least `seq`; the raw value is the same. -/
def Grows (env : Env) (seps : Delimeters) (seq : Int) (s t : Segment) : Prop :=
  t.Value = s.Value ∧ ∃ extra, t.Fields = s.Fields ++ extra ∧
    ∀ f ∈ extra, ∃ v n, seq ≤ n ∧ (f = forcedField v n ∨ f = parsedField env seps v n)

/-- The bytes `MSH` that mark a header segment. -/
def mshCode : Bytes := [0x4D, 0x53, 0x48]

/-- The segment `s` with the Fields `fs` appended. -/
def Segment.withMore (s : Segment) (fs : List hl7.Field) : Segment :=
  { s with Fields := s.Fields ++ fs }

/-- `Runs env seps spare rest pre cur seq s r`: on a non-header value laid out as
`pre ++ cur ++ rest` (with `spare` behind it in the backing array), the loop
started with `rest` unread, the open slice `cur` beginning after `pre`,
sequence counter `seq` and segment `s`, ends as `r` whenever its fuel exceeds
the number of unread bytes. -/
def Runs (env : Env) (seps : Delimeters) (spare rest pre cur : Bytes) (seq : Int)
    (s : Segment) (r : Outcome (Segment × Option Err)) : Prop :=
  ∀ fuel, rest.length < fuel →
    scan env seps false (pre ++ (cur ++ (rest ++ spare))) fuel rest
      pre.length (pre.length + cur.length) seq s = r

/-- The raw text of a segment whose fields are `fields`, each given as its
repetitions: repetitions joined by the repetition delimiter, fields by the
field delimiter. -/
def layout (seps : Delimeters) (fields : List (List Bytes)) : Bytes :=
  bytesJoin [seps.Field] (fields.map (bytesJoin [seps.Repetition]))

/-- The Fields `Parse` is to append for `fields`, the first of them at sequence
`n`: one Field per repetition, repetitions of one field sharing its sequence
number. -/
def expected (env : Env) (seps : Delimeters) : Int → List (List Bytes) → List Field
  | _, [] => []
  | n, ps :: r => ps.map (fun p => parsedField env seps p n) ++ expected env seps (n + 1) r

/-- What follows a field in the raw text: nothing after the last one, else the
field delimiter and the remaining fields. -/
def tailOf (seps : Delimeters) : List (List Bytes) → Bytes
  | [] => []
  | f :: r => seps.Field :: layout seps (f :: r)


/-- The parsed segment of `PID|a|b`: three Fields, at the sequence numbers 0, 1
and 2, `maxSeq` still 0. -/
def pidAB : Segment :=
  { Fields := [parsedField specEnv stdSeps (ascii "PID") 0,
               parsedField specEnv stdSeps (ascii "a") 1,
               parsedField specEnv stdSeps (ascii "b") 2],
    Value := ascii "PID|a|b", maxSeq := 0 }

/-- No repetition delimiter of the value is read as one by the scan: the bytes are
taken from the left, the byte after an escape character is passed over, and
every other byte differs from the repetition delimiter. -/
def noUnescapedRepetition (seps : Delimeters) : Bytes → Bool
  | [] => true
  | c :: t =>
    if c = seps.Escape then
      match t with
      | [] => true
      | _ :: t2 => noUnescapedRepetition seps t2
    else if c = seps.Repetition then false
    else noUnescapedRepetition seps t

/-- The segment after the gap-filling loop of `Set` for the target sequence
`t`: when `maxSeq < t`, empty Fields are forced in for `maxSeq + 1` up to `t`. -/
def gapFilled (s : Segment) (t : Int) : Segment :=
  if s.maxSeq < t then forceGap (t - s.maxSeq).toNat (s.maxSeq + 1) s else s

/-- Every sequence number from 0 to `maxSeq` is carried by a Field. -/
def Covered (s : Segment) : Prop :=
  0 ≤ s.maxSeq ∧ ∀ k : Int, 0 ≤ k → k ≤ s.maxSeq → ∃ f ∈ s.Fields, f.SeqNum = k

/-- The segments a program reaches from a fresh segment by a `Parse` that returns
no error, followed by any number of calls of `Set` (whatever they return). -/
inductive Reachable (env : Env) : Segment → Prop where
  | parse (seps : Delimeters) (spare v : Bytes) (t : Segment) :
      (fresh v).Parse env seps spare = Outcome.done (t, none) → Reachable env t
  | set (s : Segment) (l : Location) (val : Bytes) (seps : Delimeters) :
      Reachable env s → Reachable env (s.Set env l val seps).1

/-- The state of the loop of `Parse` between two turns: every sequence number
below the counter `seq` is carried by a Field, and `maxSeq` is at most `seq`. -/
def CoveredBelow (seq : Int) (s : Segment) : Prop :=
  0 ≤ s.maxSeq ∧ s.maxSeq ≤ seq ∧ ∀ k : Int, 0 ≤ k → k < seq → ∃ f ∈ s.Fields, f.SeqNum = k

/-- The location that names component `c` of field sequence `n`. -/
def compLoc (n c : Int) : Location := { FieldSeq := n, Rep := -1, Comp := c, SubComp := -1 }

/-- The parsed segment of `PID|a^b~c`: the Field `PID` at sequence 0 and the two
repetitions `a^b` and `c` at sequence 1. -/
def pidReps : Segment :=
  { Fields := [parsedField specEnv stdSeps (ascii "PID") 0,
               parsedField specEnv stdSeps (ascii "a^b") 1,
               parsedField specEnv stdSeps (ascii "c") 1],
    Value := ascii "PID|a^b~c", maxSeq := 0 }

/-! ## Lemmas on the library routines and on the loop of `Parse` -/

theorem DecodeRune_width_pos (p0 : Nat) (t : Bytes) : 1 ≤ (DecodeRune (p0 :: t)).2 := by
  simp only [DecodeRune]
  repeat' split
  all_goals simp

theorem DecodeRune_rune_ge (p0 : Nat) (t : Bytes) (h : 0x80 ≤ p0) :
    0x80 ≤ (DecodeRune (p0 :: t)).1 := by
  simp only [DecodeRune, RuneError]
  repeat' split
  all_goals simp only []
  all_goals omega

theorem DecodeRune_width_one (p0 : Nat) (t : Bytes) (ht : ∀ b ∈ t, b < 0x80) :
    (DecodeRune (p0 :: t)).2 = 1 := by
  simp only [DecodeRune]
  repeat' split
  all_goals simp_all
  all_goals omega

theorem ReadRune_ascii (c : Nat) (t : Bytes) (h : c < 0x80) : ReadRune (c :: t) = (c, t) := by
  simp [ReadRune, h]

/-- A read from a non-empty reader uses up a non-empty prefix of it. -/
theorem ReadRune_uses (c : Nat) (t : Bytes) :
    ∃ used, used ≠ [] ∧ c :: t = used ++ (ReadRune (c :: t)).2 := by
  by_cases h : c < 0x80
  · exact ⟨[c], by simp, by simp [ReadRune_ascii c t h]⟩
  · refine ⟨(c :: t).take (DecodeRune (c :: t)).2, ?_, ?_⟩
    · have := DecodeRune_width_pos c t
      intro h0
      have h1 := congrArg List.length h0
      simp at h1
      omega
    · simp [ReadRune, h]

/-- A rune below 0x80 comes from a single byte of the same value. -/
theorem ReadRune_of_lt (c : Nat) (t : Bytes) (h : (ReadRune (c :: t)).1 < 0x80) :
    ReadRune (c :: t) = (c, t) := by
  by_cases hc : c < 0x80
  · exact ReadRune_ascii c t hc
  · have := DecodeRune_rune_ge c t (by omega)
    simp [ReadRune, hc] at h
    omega

/-- Before ASCII bytes, any byte is read alone (as itself or as `RuneError`). -/
theorem ReadRune_rest_of_ascii (c : Nat) (t : Bytes) (ht : ∀ b ∈ t, b < 0x80) :
    (ReadRune (c :: t)).2 = t := by
  by_cases hc : c < 0x80
  · simp [ReadRune_ascii c t hc]
  · simp [ReadRune, hc, DecodeRune_width_one c t ht]

theorem scan_succ (env : Env) (seps : Delimeters) (m : Bool) (buf : Bytes) (fuel : Nat)
    (rest : Bytes) (i ii : Nat) (seq : Int) (s : Segment) :
    scan env seps m buf (fuel + 1) rest i ii seq s =
      if (ReadRune rest).1 = eof ∨ ((ReadRune rest).1 = env.endMsg ∧ seps.LFTermMsg = true) then
        if ii + 1 > i then
          match slice buf i (ii + 1 - 1) with
          | none => Outcome.panic
          | some v => Outcome.done (s.appendParsed env seps v seq, none)
        else Outcome.done (s, none)
      else if m = true ∧ seq = 2 ∧ (ReadRune rest).1 = seps.Repetition then
        scan env seps m buf fuel (ReadRune rest).2 i (ii + 1) seq s
      else if m = true ∧ seq = 2 ∧ (ReadRune rest).1 = seps.Escape then
        scan env seps m buf fuel (ReadRune rest).2 i (ii + 1) seq s
      else if (ReadRune rest).1 = seps.Field then
        match slice buf i (ii + 1 - 1) with
        | none => Outcome.panic
        | some v =>
          if m = true ∧ seq + 1 = 1 then
            scan env seps m buf fuel (ReadRune rest).2 (ii + 1) (ii + 1) (seq + 1 + 1)
              ((if m = true ∧ seq = 2 then s.forceField v seq
                else s.appendParsed env seps v seq).forceField (runeBytes seps.Field) (seq + 1))
          else
            scan env seps m buf fuel (ReadRune rest).2 (ii + 1) (ii + 1) (seq + 1)
              (if m = true ∧ seq = 2 then s.forceField v seq
                else s.appendParsed env seps v seq)
      else if (ReadRune rest).1 = seps.Repetition then
        match slice buf i (ii + 1 - 1) with
        | none => Outcome.panic
        | some v =>
          scan env seps m buf fuel (ReadRune rest).2 (ii + 1) (ii + 1) seq
            (s.appendParsed env seps v seq)
      else if (ReadRune rest).1 = seps.Escape then
        scan env seps m buf fuel (ReadRune (ReadRune rest).2).2 i (ii + 1 + 1) seq s
      else
        scan env seps m buf fuel (ReadRune rest).2 i (ii + 1) seq s := by
  rfl

theorem ReadRune_length_le (rest : Bytes) : (ReadRune rest).2.length ≤ rest.length := by
  cases rest with
  | nil => simp [ReadRune]
  | cons c t =>
    obtain ⟨used, _, h⟩ := ReadRune_uses c t
    have := congrArg List.length h
    simp at this
    simp; omega

theorem ReadRune_length_lt (rest : Bytes) (h : (ReadRune rest).1 ≠ 0) :
    (ReadRune rest).2.length < rest.length := by
  cases rest with
  | nil => simp [ReadRune] at h
  | cons c t =>
    obtain ⟨used, hu, h⟩ := ReadRune_uses c t
    have := congrArg List.length h
    have hl : 0 < used.length := List.length_pos.mpr hu
    simp at this
    simp; omega

theorem Grows.refl (env : Env) (seps : Delimeters) (seq : Int) (s : Segment) :
    Grows env seps seq s s :=
  ⟨rfl, [], by simp, by simp⟩

theorem Grows.trans {env : Env} {seps : Delimeters} {a b : Int} {s t u : Segment} (hab : a ≤ b)
    (h1 : Grows env seps a s t) (h2 : Grows env seps b t u) : Grows env seps a s u := by
  obtain ⟨v1, e1, f1, g1⟩ := h1
  obtain ⟨v2, e2, f2, g2⟩ := h2
  refine ⟨v2.trans v1, e1 ++ e2, by rw [f2, f1, List.append_assoc], ?_⟩
  intro f hf
  rcases List.mem_append.mp hf with h | h
  · exact g1 f h
  · obtain ⟨v, n, hn, hv⟩ := g2 f h
    exact ⟨v, n, le_trans hab hn, hv⟩

theorem Grows.mono {env : Env} {seps : Delimeters} {a b : Int} {s t : Segment} (hab : a ≤ b)
    (h : Grows env seps b s t) : Grows env seps a s t :=
  Grows.trans hab (Grows.refl env seps a s) h

theorem Grows.forceField (env : Env) (seps : Delimeters) (s : Segment) (v : Bytes) (seq : Int) :
    Grows env seps seq s (s.forceField v seq) :=
  ⟨rfl, _, rfl, by
    intro f hf
    exact ⟨v, seq, le_refl _, Or.inl (by simpa [forcedField] using hf)⟩⟩

theorem Grows.appendParsed (env : Env) (seps : Delimeters) (s : Segment) (v : Bytes)
    (seq : Int) : Grows env seps seq s (s.appendParsed env seps v seq) :=
  ⟨rfl, _, rfl, by
    intro f hf
    exact ⟨v, seq, le_refl _, Or.inr (by simpa [parsedField] using hf)⟩⟩

/-- What a run of the loop can do: with fuel above the number of unread bytes it
never runs out of fuel, and when it returns it returns no error and has only
appended Fields, with sequence numbers from `seq` on. -/
theorem scan_frame (env : Env) (seps : Delimeters) (m : Bool) (buf : Bytes) :
    ∀ (fuel : Nat) (rest : Bytes) (i ii : Nat) (seq : Int) (s : Segment),
      rest.length < fuel →
      scan env seps m buf fuel rest i ii seq s = Outcome.panic ∨
      ∃ t, scan env seps m buf fuel rest i ii seq s = Outcome.done (t, none) ∧
        Grows env seps seq s t := by
  intro fuel
  induction fuel with
  | zero => intro rest i ii seq s h; omega
  | succ fuel ih =>
    intro rest i ii seq s hlen
    rw [scan_succ]
    by_cases hterm : (ReadRune rest).1 = eof ∨
        ((ReadRune rest).1 = env.endMsg ∧ seps.LFTermMsg = true)
    · rw [if_pos hterm]
      split_ifs
      · split
        · exact Or.inl rfl
        · exact Or.inr ⟨_, rfl, Grows.appendParsed env seps s _ seq⟩
      · exact Or.inr ⟨_, rfl, Grows.refl env seps seq s⟩
    · rw [if_neg hterm]
      have hne : (ReadRune rest).1 ≠ 0 := fun h => hterm (Or.inl h)
      have h1 : (ReadRune rest).2.length < fuel := by
        have := ReadRune_length_lt rest hne
        omega
      have h2 : (ReadRune (ReadRune rest).2).2.length < fuel := by
        have := ReadRune_length_le (ReadRune rest).2
        omega
      by_cases c1 : m = true ∧ seq = 2 ∧ (ReadRune rest).1 = seps.Repetition
      · rw [if_pos c1]; exact ih _ _ _ _ _ h1
      rw [if_neg c1]
      by_cases c2 : m = true ∧ seq = 2 ∧ (ReadRune rest).1 = seps.Escape
      · rw [if_pos c2]; exact ih _ _ _ _ _ h1
      rw [if_neg c2]
      by_cases c3 : (ReadRune rest).1 = seps.Field
      · rw [if_pos c3]
        split
        · exact Or.inl rfl
        · rename_i v _
          have hg : Grows env seps seq s (if m = true ∧ seq = 2 then s.forceField v seq
              else s.appendParsed env seps v seq) := by
            split_ifs
            · exact Grows.forceField env seps s v seq
            · exact Grows.appendParsed env seps s v seq
          by_cases c4 : m = true ∧ seq + 1 = 1
          · rw [if_pos c4]
            rcases ih (ReadRune rest).2 (ii + 1) (ii + 1) (seq + 1 + 1) _ h1 with h | ⟨t, ht, hgt⟩
            · exact Or.inl h
            · refine Or.inr ⟨t, ht, ?_⟩
              exact Grows.trans (le_refl _) hg
                (Grows.trans (by omega) (Grows.mono (by omega)
                  (Grows.forceField env seps _ _ (seq + 1))) hgt)
          · rw [if_neg c4]
            rcases ih (ReadRune rest).2 (ii + 1) (ii + 1) (seq + 1) _ h1 with h | ⟨t, ht, hgt⟩
            · exact Or.inl h
            · exact Or.inr ⟨t, ht, Grows.trans (by omega) hg hgt⟩
      rw [if_neg c3]
      by_cases c5 : (ReadRune rest).1 = seps.Repetition
      · rw [if_pos c5]
        split
        · exact Or.inl rfl
        · rename_i v _
          rcases ih (ReadRune rest).2 (ii + 1) (ii + 1) seq _ h1 with h | ⟨t, ht, hgt⟩
          · exact Or.inl h
          · exact Or.inr ⟨t, ht, Grows.trans (le_refl _) (Grows.appendParsed env seps s v seq) hgt⟩
      rw [if_neg c5]
      by_cases c6 : (ReadRune rest).1 = seps.Escape
      · rw [if_pos c6]; exact ih _ _ _ _ _ h2
      · rw [if_neg c6]; exact ih _ _ _ _ _ h1

theorem slice_eq_some (buf : Bytes) (lo hi : Nat) (h1 : lo ≤ hi) (h2 : hi ≤ buf.length) :
    slice buf lo hi = some ((buf.take hi).drop lo) := by
  simp [slice, h1, h2]

/-- The loop never takes a slice out of range when the backing array has
spare capacity, or when the escape character is ASCII and is not the last
byte of the value. `pre` is the part of the value `x` already read. -/
theorem scan_safe (env : Env) (seps : Delimeters) (m : Bool) (x spare : Bytes)
    (hsafe : spare ≠ [] ∨ (seps.Escape < 0x80 ∧ x.getLast? ≠ some seps.Escape)) :
    ∀ (fuel : Nat) (rest : Bytes) (i ii : Nat) (seq : Int) (s : Segment) (pre : Bytes),
      x = pre ++ rest → i ≤ ii →
      (ii ≤ pre.length ∨ (rest = [] ∧ ii ≤ (x ++ spare).length)) →
      scan env seps m (x ++ spare) fuel rest i ii seq s ≠ Outcome.panic := by
  intro fuel
  induction fuel with
  | zero => intro rest i ii seq s pre _ _ _; simp [scan]
  | succ fuel ih =>
    intro rest i ii seq s pre hx hi hii
    rw [scan_succ]
    have hbound : ii ≤ (x ++ spare).length := by
      rcases hii with h | ⟨_, h⟩
      · rw [hx]; simp; omega
      · exact h
    have hsl : slice (x ++ spare) i (ii + 1 - 1) = some (((x ++ spare).take ii).drop i) := by
      simpa using slice_eq_some (x ++ spare) i ii hi hbound
    rw [hsl]
    by_cases hterm : (ReadRune rest).1 = eof ∨
        ((ReadRune rest).1 = env.endMsg ∧ seps.LFTermMsg = true)
    · rw [if_pos hterm]
      split_ifs <;> simp
    · rw [if_neg hterm]
      have hne : (ReadRune rest).1 ≠ 0 := fun h => hterm (Or.inl h)
      cases rest with
      | nil => simp [ReadRune] at hne
      | cons c t =>
        have hpre : ii ≤ pre.length := by
          rcases hii with h | ⟨h, _⟩
          · exact h
          · simp at h
        obtain ⟨used, hu, hsplit⟩ := ReadRune_uses c t
        have hul : 0 < used.length := List.length_pos.mpr hu
        have hx1 : x = (pre ++ used) ++ (ReadRune (c :: t)).2 := by
          rw [List.append_assoc, ← hsplit]; exact hx
        have hl1 : ii + 1 ≤ (pre ++ used).length := by simp; omega
        -- one more rune read, as the escape branch does
        have hstep : ∀ (i' : Nat) (seq' : Int) (s' : Segment), i' ≤ ii + 1 →
            scan env seps m (x ++ spare) fuel (ReadRune (c :: t)).2 i' (ii + 1) seq' s'
              ≠ Outcome.panic :=
          fun i' seq' s' h' => ih _ i' (ii + 1) seq' s' (pre ++ used) hx1 h' (Or.inl hl1)
        by_cases c1 : m = true ∧ seq = 2 ∧ (ReadRune (c :: t)).1 = seps.Repetition
        · rw [if_pos c1]; exact hstep _ _ _ (by omega)
        rw [if_neg c1]
        by_cases c2 : m = true ∧ seq = 2 ∧ (ReadRune (c :: t)).1 = seps.Escape
        · rw [if_pos c2]; exact hstep _ _ _ (by omega)
        rw [if_neg c2]
        by_cases c3 : (ReadRune (c :: t)).1 = seps.Field
        · rw [if_pos c3]
          simp only []
          split_ifs <;> exact hstep _ _ _ (le_refl _)
        rw [if_neg c3]
        by_cases c5 : (ReadRune (c :: t)).1 = seps.Repetition
        · rw [if_pos c5]
          exact hstep _ _ _ (le_refl _)
        rw [if_neg c5]
        by_cases c6 : (ReadRune (c :: t)).1 = seps.Escape
        · rw [if_pos c6]
          cases hr : (ReadRune (c :: t)).2 with
          | nil =>
            refine ih _ i (ii + 1 + 1) seq s x (by simp [ReadRune]) (by omega) (Or.inr ⟨by simp [ReadRune], ?_⟩)
            rcases hsafe with hsp | ⟨hE, hlast⟩
            · have : 0 < spare.length := List.length_pos.mpr hsp
              have hxl : (pre ++ used).length ≤ x.length := by
                rw [hx1]; simp
              simp; simp at hxl hl1; omega
            · exfalso
              have hrr := ReadRune_of_lt c t (by rw [c6]; exact hE)
              rw [hrr] at hr c6
              simp at hr c6
              apply hlast
              rw [hx, hr, c6]
              simp
          | cons c' t' =>
            obtain ⟨used', hu', hsplit'⟩ := ReadRune_uses c' t'
            have hul' : 0 < used'.length := List.length_pos.mpr hu'
            refine ih _ i (ii + 1 + 1) seq s (pre ++ used ++ used') ?_ (by omega) (Or.inl ?_)
            · rw [List.append_assoc (pre ++ used), ← hsplit', ← hr]; exact hx1
            · simp; simp at hl1; omega
        · rw [if_neg c6]; exact hstep _ _ _ (by omega)

/-- One turn of the loop on a byte that starts nothing: the cursor moves on. -/
theorem scan_step_plain (env : Env) (seps : Delimeters) (m : Bool) (buf : Bytes) (fuel : Nat)
    (c : Nat) (t : Bytes) (i ii : Nat) (seq : Int) (s : Segment)
    (hc : plain env seps c) (hF : c ≠ seps.Field)
    (hRE : (c ≠ seps.Repetition ∧ c ≠ seps.Escape) ∨ (m = true ∧ seq = 2)) :
    scan env seps m buf (fuel + 1) (c :: t) i ii seq s =
      scan env seps m buf fuel t i (ii + 1) seq s := by
  obtain ⟨h1, h2, h3⟩ := hc
  rw [scan_succ, ReadRune_ascii c t h1]
  have hterm : ¬ (c = eof ∨ (c = env.endMsg ∧ seps.LFTermMsg = true)) := by
    rintro (h | ⟨h, hf⟩)
    · exact h2 h
    · exact h3 hf h
  simp only [if_neg hterm]
  rcases hRE with ⟨hR, hE⟩ | ⟨hm, hs⟩
  · simp [hF, hR, hE]
  · subst hs
    simp only [hm, true_and, if_neg hF]
    split_ifs <;> rfl

/-- One turn of the loop on the field delimiter, outside the header cases. -/
theorem scan_step_field (env : Env) (seps : Delimeters) (m : Bool) (buf : Bytes) (fuel : Nat)
    (t : Bytes) (i ii : Nat) (seq : Int) (s : Segment) (v : Bytes)
    (hc : plain env seps seps.Field) (hm : m = false ∨ (seq ≠ 0 ∧ seq ≠ 2))
    (hv : slice buf i ii = some v) :
    scan env seps m buf (fuel + 1) (seps.Field :: t) i ii seq s =
      scan env seps m buf fuel t (ii + 1) (ii + 1) (seq + 1) (s.appendParsed env seps v seq) := by
  obtain ⟨h1, h2, h3⟩ := hc
  rw [scan_succ, ReadRune_ascii _ t h1]
  have hterm : ¬ (seps.Field = eof ∨ (seps.Field = env.endMsg ∧ seps.LFTermMsg = true)) := by
    rintro (h | ⟨h, hf⟩)
    · exact h2 h
    · exact h3 hf h
  have n2 : ¬ (m = true ∧ seq = 2) := by
    rcases hm with h | h
    · simp [h]
    · simp [h.2]
  have n1 : ¬ (m = true ∧ seq + 1 = 1) := by
    rcases hm with h | h
    · simp [h]
    · intro h'; exact h.1 (by omega)
  have n3 : ¬ (m = true ∧ seq = 2 ∧ seps.Field = seps.Repetition) := fun h => n2 ⟨h.1, h.2.1⟩
  have n4 : ¬ (m = true ∧ seq = 2 ∧ seps.Field = seps.Escape) := fun h => n2 ⟨h.1, h.2.1⟩
  simp only [if_neg hterm, if_neg n3, if_neg n4, if_true, Nat.add_sub_cancel, hv, if_neg n1, if_neg n2]

/-- The field delimiter that closes the segment code of a header: the code is
appended at sequence 0, the delimiter itself is forced in at sequence 1. -/
theorem scan_step_field_msh0 (env : Env) (seps : Delimeters) (buf : Bytes) (fuel : Nat)
    (t : Bytes) (i ii : Nat) (s : Segment) (v : Bytes)
    (hc : plain env seps seps.Field) (hv : slice buf i ii = some v) :
    scan env seps true buf (fuel + 1) (seps.Field :: t) i ii 0 s =
      scan env seps true buf fuel t (ii + 1) (ii + 1) 2
        ((s.appendParsed env seps v 0).forceField (runeBytes seps.Field) 1) := by
  obtain ⟨h1, h2, h3⟩ := hc
  rw [scan_succ, ReadRune_ascii _ t h1]
  have hterm : ¬ (seps.Field = eof ∨ (seps.Field = env.endMsg ∧ seps.LFTermMsg = true)) := by
    rintro (h | ⟨h, hf⟩)
    · exact h2 h
    · exact h3 hf h
  simp [if_neg hterm, hv]

/-- The field delimiter that closes the encoding-characters field of a header:
the slice is forced in at sequence 2, unparsed. -/
theorem scan_step_field_msh2 (env : Env) (seps : Delimeters) (buf : Bytes) (fuel : Nat)
    (t : Bytes) (i ii : Nat) (s : Segment) (v : Bytes)
    (hc : plain env seps seps.Field) (hR : seps.Field ≠ seps.Repetition)
    (hE : seps.Field ≠ seps.Escape) (hv : slice buf i ii = some v) :
    scan env seps true buf (fuel + 1) (seps.Field :: t) i ii 2 s =
      scan env seps true buf fuel t (ii + 1) (ii + 1) 3 (s.forceField v 2) := by
  obtain ⟨h1, h2, h3⟩ := hc
  rw [scan_succ, ReadRune_ascii _ t h1]
  have hterm : ¬ (seps.Field = eof ∨ (seps.Field = env.endMsg ∧ seps.LFTermMsg = true)) := by
    rintro (h | ⟨h, hf⟩)
    · exact h2 h
    · exact h3 hf h
  simp [if_neg hterm, hv, hR, hE]

/-- One turn of the loop on the repetition delimiter. -/
theorem scan_step_rep (env : Env) (seps : Delimeters) (m : Bool) (buf : Bytes) (fuel : Nat)
    (t : Bytes) (i ii : Nat) (seq : Int) (s : Segment) (v : Bytes)
    (hc : plain env seps seps.Repetition) (hF : seps.Repetition ≠ seps.Field)
    (hm : m = false ∨ seq ≠ 2) (hv : slice buf i ii = some v) :
    scan env seps m buf (fuel + 1) (seps.Repetition :: t) i ii seq s =
      scan env seps m buf fuel t (ii + 1) (ii + 1) seq (s.appendParsed env seps v seq) := by
  obtain ⟨h1, h2, h3⟩ := hc
  rw [scan_succ, ReadRune_ascii _ t h1]
  have hterm : ¬ (seps.Repetition = eof ∨
      (seps.Repetition = env.endMsg ∧ seps.LFTermMsg = true)) := by
    rintro (h | ⟨h, hf⟩)
    · exact h2 h
    · exact h3 hf h
  have n2 : ¬ (m = true ∧ seq = 2) := by
    rcases hm with h | h
    · simp [h]
    · simp [h]
  have n3 : ¬ (m = true ∧ seq = 2 ∧ seps.Repetition = seps.Repetition) :=
    fun h => n2 ⟨h.1, h.2.1⟩
  have n4 : ¬ (m = true ∧ seq = 2 ∧ seps.Repetition = seps.Escape) := fun h => n2 ⟨h.1, h.2.1⟩
  have n5 : ¬ (m = true ∧ seq = 2 ∧ True) := fun h => n2 ⟨h.1, h.2.1⟩
  simp only [if_neg hterm, if_neg n3, if_neg n4, if_neg n5, if_neg hF, if_true,
    Nat.add_sub_cancel, hv]

/-- One turn of the loop on the escape character: the rune after it is read and
dropped, and the cursor moves by two. -/
theorem scan_step_esc (env : Env) (seps : Delimeters) (m : Bool) (buf : Bytes) (fuel : Nat)
    (t : Bytes) (i ii : Nat) (seq : Int) (s : Segment)
    (hc : plain env seps seps.Escape) (hF : seps.Escape ≠ seps.Field)
    (hR : seps.Escape ≠ seps.Repetition) (hm : m = false ∨ seq ≠ 2) :
    scan env seps m buf (fuel + 1) (seps.Escape :: t) i ii seq s =
      scan env seps m buf fuel (ReadRune t).2 i (ii + 2) seq s := by
  obtain ⟨h1, h2, h3⟩ := hc
  rw [scan_succ, ReadRune_ascii _ t h1]
  have hterm : ¬ (seps.Escape = eof ∨ (seps.Escape = env.endMsg ∧ seps.LFTermMsg = true)) := by
    rintro (h | ⟨h, hf⟩)
    · exact h2 h
    · exact h3 hf h
  have n2 : ¬ (m = true ∧ seq = 2) := by
    rcases hm with h | h
    · simp [h]
    · simp [h]
  have n3 : ¬ (m = true ∧ seq = 2 ∧ seps.Escape = seps.Repetition) := fun h => n2 ⟨h.1, h.2.1⟩
  have n4 : ¬ (m = true ∧ seq = 2 ∧ seps.Escape = seps.Escape) := fun h => n2 ⟨h.1, h.2.1⟩
  have n5 : ¬ (m = true ∧ seq = 2 ∧ True) := fun h => n2 ⟨h.1, h.2.1⟩
  simp only [if_neg hterm, if_neg n3, if_neg n4, if_neg n5, if_neg hF, if_neg hR, if_true]

/-- The turn of the loop at the end of the input: the open slice is appended. -/
theorem scan_step_end (env : Env) (seps : Delimeters) (m : Bool) (buf : Bytes) (fuel : Nat)
    (i ii : Nat) (seq : Int) (s : Segment) (v : Bytes) (hi : i ≤ ii)
    (hv : slice buf i ii = some v) :
    scan env seps m buf (fuel + 1) [] i ii seq s =
      Outcome.done (s.appendParsed env seps v seq, none) := by
  rw [scan_succ]
  have : ii + 1 > i := by omega
  simp [ReadRune, eof, hv, this]

theorem slice_mid (pre a post : Bytes) :
    slice (pre ++ (a ++ post)) pre.length (pre.length + a.length) = some a := by
  have h : pre.length + a.length ≤ (pre ++ (a ++ post)).length := by simp
  rw [slice_eq_some _ _ _ (by omega) h]
  congr 1
  rw [← List.append_assoc, ← List.length_append, List.take_left, List.drop_left]

/-- A run of bytes that start nothing moves the cursor to its end. In the
encoding-characters field of a header the repetition and escape characters
belong to such a run. -/
theorem scan_run (env : Env) (seps : Delimeters) (m : Bool) (buf : Bytes) (seq : Int)
    (s : Segment) (i : Nat) (rest : Bytes) (fuel : Nat) :
    ∀ (u : Bytes) (ii : Nat),
      (∀ b ∈ u, plain env seps b ∧ b ≠ seps.Field ∧
        ((b ≠ seps.Repetition ∧ b ≠ seps.Escape) ∨ (m = true ∧ seq = 2))) →
      scan env seps m buf (fuel + u.length) (u ++ rest) i ii seq s =
        scan env seps m buf fuel rest i (ii + u.length) seq s := by
  intro u
  induction u with
  | nil => intro ii _; simp
  | cons c t ih =>
    intro ii hu
    obtain ⟨h1, h2, h3⟩ := hu c (by simp)
    have := scan_step_plain env seps m buf (fuel + t.length) c (t ++ rest) i ii seq s h1 h2 h3
    rw [List.cons_append, List.length_cons, ← Nat.add_assoc, this,
      ih (ii + 1) (fun b hb => hu b (by simp [hb]))]
    congr 1
    omega

/-- The loop runs over an atom without appending anything. -/
theorem scan_atom (env : Env) (seps : Delimeters) (m : Bool) (buf : Bytes) (seq : Int)
    (s : Segment) (i : Nat) (rest : Bytes) (hm : m = false ∨ seq ≠ 2) :
    ∀ (n : Nat) (a : Bytes) (ii fuel : Nat), a.length ≤ n →
      atom seps a = true → (∀ b ∈ a, plain env seps b) → (a ++ rest).length < fuel →
      ∃ fuel', rest.length < fuel' ∧
        scan env seps m buf fuel (a ++ rest) i ii seq s =
          scan env seps m buf fuel' rest i (ii + a.length) seq s := by
  intro n
  induction n with
  | zero =>
    intro a ii fuel hn _ _ hf
    have : a = [] := List.length_eq_zero.mp (by omega)
    subst this
    exact ⟨fuel, by simpa using hf, by simp⟩
  | succ n ih =>
    intro a ii fuel hn ha hp hf
    cases a with
    | nil => exact ⟨fuel, by simpa using hf, by simp⟩
    | cons c t =>
      cases fuel with
      | zero => simp at hf
      | succ fuel =>
        have hc := hp c (by simp)
        rw [atom.eq_def] at ha
        simp only [] at ha
        by_cases hFR : c = seps.Field ∨ c = seps.Repetition
        · simp [hFR] at ha
        · rw [if_neg hFR] at ha
          have hF : c ≠ seps.Field := fun h => hFR (Or.inl h)
          have hR : c ≠ seps.Repetition := fun h => hFR (Or.inr h)
          by_cases hE : c = seps.Escape
          · rw [if_pos hE] at ha
            cases t with
            | nil => simp at ha
            | cons c2 t2 =>
              simp only [] at ha
              have hc2 := hp c2 (by simp)
              subst hE
              have hstep := scan_step_esc env seps m buf fuel (c2 :: t2 ++ rest) i ii seq s
                hc hF hR hm
              rw [List.cons_append, ReadRune_ascii c2 (t2 ++ rest) hc2.1] at hstep
              obtain ⟨fuel', hf', heq⟩ := ih t2 (ii + 2) fuel (by simp at hn; omega) ha
                (fun b hb => hp b (by simp [hb])) (by simp at hf ⊢; omega)
              refine ⟨fuel', hf', ?_⟩
              simp only [List.cons_append] at hstep ⊢
              rw [hstep, heq]
              congr 1
              simp; omega
          · rw [if_neg hE] at ha
            have hstep := scan_step_plain env seps m buf fuel c (t ++ rest) i ii seq s hc hF
              (Or.inl ⟨hR, hE⟩)
            obtain ⟨fuel', hf', heq⟩ := ih t (ii + 1) fuel (by simp at hn; omega) ha
              (fun b hb => hp b (by simp [hb])) (by simp at hf ⊢; omega)
            refine ⟨fuel', hf', ?_⟩
            rw [List.cons_append, hstep, heq]
            congr 1
            simp; omega

theorem Parse_eq_scan (env : Env) (seps : Delimeters) (spare : Bytes) (s : Segment)
    (h : 3 ≤ s.Value.length) :
    s.Parse env seps spare =
      scan env seps (decide (s.Value.take 3 = mshCode)) (s.Value ++ spare)
        (s.Value.length + 1) s.Value 0 0 0 s := by
  have : ¬ s.Value.length < 3 := by omega
  simp [Segment.Parse, this, mshCode]

theorem withMore_appendParsed (env : Env) (seps : Delimeters) (s : Segment) (v : Bytes)
    (seq : Int) (fs : List hl7.Field) :
    (s.appendParsed env seps v seq).withMore fs = s.withMore (parsedField env seps v seq :: fs) := by
  simp [Segment.withMore, Segment.appendParsed, parsedField]

theorem Runs_end (env : Env) (seps : Delimeters) (spare pre cur : Bytes) (seq : Int)
    (s : Segment) :
    Runs env seps spare [] pre cur seq s
      (Outcome.done (s.withMore [parsedField env seps cur seq], none)) := by
  intro fuel hf
  cases fuel with
  | zero => simp at hf
  | succ fuel =>
    rw [scan_step_end env seps false _ fuel _ _ seq s cur (by omega)]
    · rfl
    · simpa using slice_mid pre cur spare

theorem Runs_atom (env : Env) (seps : Delimeters) (spare rest pre cur a : Bytes) (seq : Int)
    (s : Segment) (r : Outcome (Segment × Option Err))
    (ha : atom seps a = true) (hp : ∀ b ∈ a, plain env seps b)
    (h : Runs env seps spare rest pre (cur ++ a) seq s r) :
    Runs env seps spare (a ++ rest) pre cur seq s r := by
  intro fuel hf
  obtain ⟨fuel', hf', heq⟩ := scan_atom env seps false (pre ++ (cur ++ (a ++ rest ++ spare)))
    seq s pre.length rest (Or.inl rfl) a.length a (pre.length + cur.length) fuel (le_refl _) ha hp hf
  rw [heq]
  have := h fuel' hf'
  simp only [List.append_assoc, List.length_append, Nat.add_assoc] at this ⊢
  exact this

theorem Runs_field (env : Env) (seps : Delimeters) (spare rest pre cur : Bytes) (seq : Int)
    (s : Segment) (r : Outcome (Segment × Option Err))
    (hc : plain env seps seps.Field)
    (h : Runs env seps spare rest (pre ++ (cur ++ [seps.Field])) [] (seq + 1)
      (s.appendParsed env seps cur seq) r) :
    Runs env seps spare (seps.Field :: rest) pre cur seq s r := by
  intro fuel hf
  cases fuel with
  | zero => simp at hf
  | succ fuel =>
    rw [scan_step_field env seps false _ fuel rest _ _ seq s cur hc (Or.inl rfl)
      (by simpa using slice_mid pre cur (seps.Field :: rest ++ spare))]
    have := h fuel (by simpa using hf)
    simp only [List.append_assoc, List.length_append, Nat.add_assoc, List.nil_append,
      List.length_nil, Nat.add_zero, List.length_cons, List.singleton_append, List.cons_append]
      at this ⊢
    exact this

theorem Runs_rep (env : Env) (seps : Delimeters) (spare rest pre cur : Bytes) (seq : Int)
    (s : Segment) (r : Outcome (Segment × Option Err))
    (hc : plain env seps seps.Repetition) (hF : seps.Repetition ≠ seps.Field)
    (h : Runs env seps spare rest (pre ++ (cur ++ [seps.Repetition])) [] seq
      (s.appendParsed env seps cur seq) r) :
    Runs env seps spare (seps.Repetition :: rest) pre cur seq s r := by
  intro fuel hf
  cases fuel with
  | zero => simp at hf
  | succ fuel =>
    rw [scan_step_rep env seps false _ fuel rest _ _ seq s cur hc hF (Or.inl rfl)
      (by simpa using slice_mid pre cur (seps.Repetition :: rest ++ spare))]
    have := h fuel (by simpa using hf)
    simp only [List.append_assoc, List.length_append, Nat.add_assoc, List.nil_append,
      List.length_nil, Nat.add_zero, List.length_cons, List.singleton_append, List.cons_append]
      at this ⊢
    exact this

theorem layout_cons (seps : Delimeters) (ps : List Bytes) (r : List (List Bytes)) :
    layout seps (ps :: r) = bytesJoin [seps.Repetition] ps ++ tailOf seps r := by
  cases r with
  | nil => simp [layout, tailOf, bytesJoin]
  | cons f r => simp [layout, tailOf, bytesJoin]

/-- The loop on a laid-out value: it appends one Field per repetition, in order,
fields numbered from `seq`. The delimiters need be plain only where the layout
uses them. -/
theorem Runs_layout (env : Env) (seps : Delimeters) (spare : Bytes) :
    ∀ (fields : List (List Bytes)), fields ≠ [] →
      (2 ≤ fields.length → plain env seps seps.Field) →
      (∀ ps ∈ fields, ps ≠ [] ∧
        (∀ p ∈ ps, atom seps p = true ∧ ∀ b ∈ p, plain env seps b) ∧
        (2 ≤ ps.length → plain env seps seps.Repetition ∧ seps.Repetition ≠ seps.Field)) →
      ∀ (pre : Bytes) (seq : Int) (s : Segment),
        Runs env seps spare (layout seps fields) pre [] seq s
          (Outcome.done (s.withMore (expected env seps seq fields), none)) := by
  intro fields
  induction fields with
  | nil => intro h; exact absurd rfl h
  | cons ps r ih =>
    intro _ hF hfs pre seq s
    rw [layout_cons]
    -- what follows the last repetition of this field
    have T : ∀ (pre cur : Bytes) (s : Segment),
        Runs env seps spare (tailOf seps r) pre cur seq s
          (Outcome.done
            (s.withMore (parsedField env seps cur seq :: expected env seps (seq + 1) r), none)) := by
      intro pre cur s
      cases r with
      | nil => exact Runs_end env seps spare pre cur seq s
      | cons f r' =>
        refine Runs_field env seps spare _ pre cur seq s _ (hF (by simp)) ?_
        have := ih (by simp) (fun _ => hF (by simp))
          (fun ps' hps' => hfs ps' (List.mem_cons_of_mem _ hps'))
          (pre ++ (cur ++ [seps.Field])) (seq + 1) (s.appendParsed env seps cur seq)
        rw [withMore_appendParsed] at this
        exact this
    have inner : ∀ (ps : List Bytes), ps ≠ [] →
        (∀ p ∈ ps, atom seps p = true ∧ ∀ b ∈ p, plain env seps b) →
        (2 ≤ ps.length → plain env seps seps.Repetition ∧ seps.Repetition ≠ seps.Field) →
        ∀ (pre : Bytes) (s : Segment),
          Runs env seps spare (bytesJoin [seps.Repetition] ps ++ tailOf seps r) pre [] seq s
            (Outcome.done (s.withMore (ps.map (fun p => parsedField env seps p seq) ++
              expected env seps (seq + 1) r), none)) := by
      intro ps
      induction ps with
      | nil => intro hne; exact absurd rfl hne
      | cons p ps' ihp =>
        intro _ hatoms hR pre s
        obtain ⟨hap, hpp⟩ := hatoms p (by simp)
        cases ps' with
        | nil =>
          simp only [bytesJoin, List.map_cons, List.map_nil, List.singleton_append]
          refine Runs_atom env seps spare _ pre [] p seq s _ hap hpp ?_
          simpa using T pre p s
        | cons q ps'' =>
          obtain ⟨hRp, hRF⟩ := hR (by simp)
          simp only [bytesJoin, List.map_cons, List.append_assoc, List.singleton_append,
            List.cons_append]
          refine Runs_atom env seps spare _ pre [] p seq s _ hap hpp ?_
          refine Runs_rep env seps spare _ pre _ seq s _ hRp hRF ?_
          have := ihp (by simp) (fun p' hp' => hatoms p' (List.mem_cons_of_mem _ hp'))
            (fun _ => ⟨hRp, hRF⟩) (pre ++ ([] ++ p ++ [seps.Repetition]))
            (s.appendParsed env seps ([] ++ p) seq)
          rw [withMore_appendParsed] at this
          simpa using this
    obtain ⟨hne, hatoms, hR⟩ := hfs ps (by simp)
    exact inner ps hne hatoms hR pre s

theorem foldl_values (fs : List hl7.Field) (acc : List Bytes) :
    fs.foldl (fun buf f => buf ++ [f.Value]) acc = acc ++ fs.map (fun f => f.Value) := by
  induction fs generalizing acc with
  | nil => simp
  | cons f r ih => simp [ih]

/-- The method `encode` joins the Values of the Fields in stored order. -/
theorem encode_eq (seps : Delimeters) (s : Segment) :
    s.encode seps = bytesJoin (runeBytes seps.Field) (s.Fields.map (fun f => f.Value)) := by
  simp [Segment.encode, foldl_values]

/-- `Parse` on a fresh segment whose value is a layout and not a header: it
returns no error and the Fields are those of the layout. -/
theorem Parse_layout (env : Env) (seps : Delimeters) (spare : Bytes)
    (fields : List (List Bytes)) (hne : fields ≠ [])
    (hF : 2 ≤ fields.length → plain env seps seps.Field)
    (hfs : ∀ ps ∈ fields, ps ≠ [] ∧
      (∀ p ∈ ps, atom seps p = true ∧ ∀ b ∈ p, plain env seps b) ∧
      (2 ≤ ps.length → plain env seps seps.Repetition ∧ seps.Repetition ≠ seps.Field))
    (h3 : 3 ≤ (layout seps fields).length) (hmsh : (layout seps fields).take 3 ≠ mshCode) :
    (fresh (layout seps fields)).Parse env seps spare =
      Outcome.done ((fresh (layout seps fields)).withMore (expected env seps 0 fields), none) := by
  rw [Parse_eq_scan env seps spare _ h3]
  have hm : decide ((fresh (layout seps fields)).Value.take 3 = mshCode) = false := by
    simpa [fresh] using hmsh
  rw [hm]
  have := Runs_layout env seps spare fields hne hF hfs [] 0 (fresh (layout seps fields))
    ((layout seps fields).length + 1) (by omega)
  simpa [fresh] using this

theorem layout_singletons (seps : Delimeters) (as : List Bytes) :
    layout seps (as.map fun a => [a]) = bytesJoin [seps.Field] as := by
  simp [layout, List.map_map, Function.comp_def, bytesJoin]

theorem expected_singletons_values (env : Env)
    (hV : ∀ sp f, (env.fieldParse sp f).Value = f.Value) (seps : Delimeters) :
    ∀ (as : List Bytes) (n : Int),
      (expected env seps n (as.map fun a => [a])).map (fun f => f.Value) = as := by
  intro as
  induction as with
  | nil => intro n; simp [expected]
  | cons a r ih => intro n; simp [expected, parsedField, hV, ih]

theorem mem_bytesJoin_of_mem (sep : Bytes) (b : Nat) :
    ∀ (as : List Bytes) (a : Bytes), a ∈ as → b ∈ a → b ∈ bytesJoin sep as := by
  intro as
  induction as with
  | nil => intro a ha; simp at ha
  | cons x r ih =>
    intro a ha hb
    cases r with
    | nil =>
      simp at ha
      subst ha
      simpa [bytesJoin] using hb
    | cons y r' =>
      simp only [bytesJoin, List.mem_append]
      rcases List.mem_cons.mp ha with h | h
      · subst h; exact Or.inl (Or.inl hb)
      · exact Or.inr (ih a h hb)

theorem sep_mem_bytesJoin (c : Nat) (as : List Bytes) (h : 2 ≤ as.length) :
    c ∈ bytesJoin [c] as := by
  match as, h with
  | a :: b :: r, _ => simp [bytesJoin]

theorem bytesJoin_sep_irrelevant (sep sep' : Bytes) (as : List Bytes)
    (h : 2 ≤ as.length → sep = sep') : bytesJoin sep as = bytesJoin sep' as := by
  match as with
  | [] => rfl
  | [a] => rfl
  | a :: b :: r => rw [h (by simp)]

theorem foldl_filter (i : Int) (fs : List hl7.Field) (acc : List hl7.Field) :
    fs.foldl (fun acc fld => if fld.SeqNum = i then acc ++ [fld] else acc) acc =
      acc ++ fs.filter (fun fld => decide (fld.SeqNum = i)) := by
  induction fs generalizing acc with
  | nil => simp
  | cons f r ih =>
    by_cases h : f.SeqNum = i <;> simp [ih, h]

/-- What `AllFields` returns when the filter of the Fields by sequence number
is `fs`. -/
theorem AllFields_of_filter (s : Segment) (i : Int) (fs : List hl7.Field)
    (h : s.Fields.filter (fun fld => decide (fld.SeqNum = i)) = fs) :
    s.AllFields i = (fs, if fs.length = 0 then some Err.fieldNotFound else none) := by
  simp only [Segment.AllFields, foldl_filter, List.nil_append, h]
  split_ifs <;> rfl

theorem expected_seq_ge (env : Env) (hS : ∀ sp f, (env.fieldParse sp f).SeqNum = f.SeqNum)
    (seps : Delimeters) :
    ∀ (fields : List (List Bytes)) (n : Int), ∀ f ∈ expected env seps n fields, n ≤ f.SeqNum := by
  intro fields
  induction fields with
  | nil => intro n f hf; simp [expected] at hf
  | cons ps r ih =>
    intro n f hf
    simp only [expected, List.mem_append, List.mem_map] at hf
    rcases hf with ⟨p, _, rfl⟩ | hf
    · simp [parsedField, hS]
    · have := ih (n + 1) f hf
      omega

theorem expected_filter (env : Env) (hS : ∀ sp f, (env.fieldParse sp f).SeqNum = f.SeqNum)
    (seps : Delimeters) :
    ∀ (fields : List (List Bytes)) (k : Nat) (n : Int) (ps : List Bytes),
      fields.get? k = some ps →
      (expected env seps n fields).filter (fun fld => decide (fld.SeqNum = n + k)) =
        ps.map (fun p => parsedField env seps p (n + k)) := by
  intro fields
  induction fields with
  | nil => intro k n ps h; simp at h
  | cons qs r ih =>
    intro k n ps h
    simp only [expected, List.filter_append]
    cases k with
    | zero =>
      simp only [List.get?_cons_zero, Option.some.injEq] at h
      subst h
      have h1 : (qs.map (fun p => parsedField env seps p n)).filter
          (fun fld => decide (fld.SeqNum = n + (0 : Nat))) =
          qs.map (fun p => parsedField env seps p n) := by
        apply List.filter_eq_self.mpr
        intro f hf
        obtain ⟨p, _, rfl⟩ := List.mem_map.mp hf
        simp [parsedField, hS]
      have h2 : (expected env seps (n + 1) r).filter
          (fun fld => decide (fld.SeqNum = n + (0 : Nat))) = [] := by
        apply List.filter_eq_nil_iff.mpr
        intro f hf
        have := expected_seq_ge env hS seps r (n + 1) f hf
        simp; omega
      rw [h1, h2]
      simp
    | succ k =>
      simp only [List.get?_cons_succ] at h
      have h1 : (qs.map (fun p => parsedField env seps p n)).filter
          (fun fld => decide (fld.SeqNum = n + ((k + 1 : Nat) : Int))) = [] := by
        apply List.filter_eq_nil_iff.mpr
        intro f hf
        obtain ⟨p, _, rfl⟩ := List.mem_map.mp hf
        simp [parsedField, hS]; omega
      have h2 := ih k (n + 1) ps h
      have e : n + 1 + (k : Int) = n + ((k + 1 : Nat) : Int) := by push_cast; ring
      rw [e] at h2
      rw [h1, h2]
      simp

/-- From a state inside the value, with the escape character unable to run past
the end, the loop returns: no error, Fields only appended. -/
theorem scan_done (env : Env) (seps : Delimeters) (m : Bool) (x spare : Bytes)
    (hsafe : spare ≠ [] ∨ (seps.Escape < 0x80 ∧ x.getLast? ≠ some seps.Escape))
    (fuel : Nat) (rest : Bytes) (i ii : Nat) (seq : Int) (s : Segment) (pre : Bytes)
    (hx : x = pre ++ rest) (hi : i ≤ ii) (hii : ii ≤ pre.length) (hf : rest.length < fuel) :
    ∃ t, scan env seps m (x ++ spare) fuel rest i ii seq s = Outcome.done (t, none) ∧
      Grows env seps seq s t := by
  rcases scan_frame env seps m (x ++ spare) fuel rest i ii seq s hf with h | h
  · exact absurd h (scan_safe env seps m x spare hsafe fuel rest i ii seq s pre hx hi (Or.inl hii))
  · exact h

theorem Grows.seq_le {env : Env} {seps : Delimeters} {seq : Int} {s t : Segment}
    (hS : ∀ sp f, (env.fieldParse sp f).SeqNum = f.SeqNum) (h : Grows env seps seq s t) :
    ∃ extra, t.Fields = s.Fields ++ extra ∧ ∀ f ∈ extra, seq ≤ f.SeqNum := by
  obtain ⟨_, extra, he, hx⟩ := h
  refine ⟨extra, he, ?_⟩
  intro f hf
  obtain ⟨v, n, hn, hv | hv⟩ := hx f hf
  · rw [hv]; simpa [forcedField] using hn
  · rw [hv]; simpa [parsedField, hS] using hn

theorem plain_of_msh (env : Env) (seps : Delimeters)
    (hEnd : seps.LFTermMsg = true → env.endMsg ∉ mshCode) :
    ∀ b ∈ mshCode, plain env seps b := by
  intro b hb
  refine ⟨?_, ?_, ?_⟩
  · simp [mshCode] at hb; omega
  · simp [mshCode] at hb; omega
  · intro hfl h
    exact hEnd hfl (h ▸ hb)

/-- The first four bytes of a header: the segment code is appended at sequence
0 and the field delimiter forced in at sequence 1; the scan goes on at
sequence 2 with the cursor after the delimiter. -/
theorem scan_header_start (env : Env) (seps : Delimeters) (spare tail : Bytes) (fuel : Nat)
    (s : Segment)
    (hF : seps.Field < 0x80) (hF0 : seps.Field ≠ 0)
    (hFm : seps.Field ∉ mshCode) (hRm : seps.Repetition ∉ mshCode)
    (hEm : seps.Escape ∉ mshCode)
    (hEnd : seps.LFTermMsg = true → env.endMsg ∉ mshCode ∧ env.endMsg ≠ seps.Field) :
    scan env seps true (mshCode ++ seps.Field :: tail ++ spare) (fuel + 1 + 3)
        (mshCode ++ seps.Field :: tail) 0 0 0 s =
      scan env seps true (mshCode ++ seps.Field :: tail ++ spare) fuel tail 4 4 2
        ((s.appendParsed env seps mshCode 0).forceField [seps.Field] 1) := by
  have hpl := plain_of_msh env seps (fun h => (hEnd h).1)
  have hrun := scan_run env seps true (mshCode ++ seps.Field :: tail ++ spare) 0 s 0
    (seps.Field :: tail) (fuel + 1) mshCode 0
    (fun b hb => ⟨hpl b hb, fun h => hFm (h ▸ hb),
      Or.inl ⟨fun h => hRm (h ▸ hb), fun h => hEm (h ▸ hb)⟩⟩)
  have hlen : mshCode.length = 3 := rfl
  rw [hlen] at hrun
  rw [hrun]
  have hFp : plain env seps seps.Field := ⟨hF, hF0, fun h e => (hEnd h).2 e.symm⟩
  have hsl : slice (mshCode ++ seps.Field :: tail ++ spare) 0 (0 + 3) = some mshCode := by
    have := slice_mid [] mshCode (seps.Field :: tail ++ spare)
    simpa [hlen] using this
  rw [scan_step_field_msh0 env seps _ fuel tail 0 (0 + 3) s mshCode hFp hsl]
  simp [runeBytes, hF]

theorem Parse_header_eq_scan (env : Env) (seps : Delimeters) (spare tail : Bytes) :
    (fresh (mshCode ++ seps.Field :: tail)).Parse env seps spare =
      scan env seps true (mshCode ++ seps.Field :: tail ++ spare) (tail.length + 1 + 1 + 3)
        (mshCode ++ seps.Field :: tail) 0 0 0 (fresh (mshCode ++ seps.Field :: tail)) := by
  rw [Parse_eq_scan env seps spare _ (by simp [fresh, mshCode])]
  have hm : decide ((fresh (mshCode ++ seps.Field :: tail)).Value.take 3 = mshCode) = true := by
    simp [fresh, mshCode]
  rw [hm]
  simp [fresh, mshCode]

/-! ## What `Parse` returns -/

/-- On a value shorter than 3 bytes `Parse` returns the error at once and leaves
the segment as it was. -/
theorem Parse_short (env : Env) (seps : Delimeters) (spare : Bytes) (s : Segment)
    (h : s.Value.length < 3) :
    s.Parse env seps spare = Outcome.done (s, some (Err.invalidSegment s.Value.length)) := by
  simp [Segment.Parse, h]

/-- On a value of 3 bytes or more `Parse` either panics on a slice out of range
or returns no error, having only appended Fields. -/
theorem Parse_long (env : Env) (seps : Delimeters) (spare : Bytes) (s : Segment)
    (h : 3 ≤ s.Value.length) :
    s.Parse env seps spare = Outcome.panic ∨
    ∃ t, s.Parse env seps spare = Outcome.done (t, none) ∧ Grows env seps 0 s t := by
  rw [Parse_eq_scan env seps spare s h]
  exact scan_frame env seps _ _ _ _ 0 0 0 s (by omega)

/-- The loop of `Parse` always ends: the fuel of the embedding never runs out. -/
theorem Parse_terminates (env : Env) (seps : Delimeters) (spare : Bytes) (s : Segment) :
    s.Parse env seps spare ≠ Outcome.exhausted := by
  by_cases h : s.Value.length < 3
  · rw [Parse_short env seps spare s h]; simp
  · rcases Parse_long env seps spare s (by omega) with h' | ⟨t, h', _⟩ <;> rw [h'] <;> simp

/-- `Parse` returns an error exactly on a value shorter than 3 bytes. -/
theorem Parse_error_iff (env : Env) (seps : Delimeters) (spare : Bytes) (s : Segment) :
    (∃ t e, s.Parse env seps spare = Outcome.done (t, some e)) ↔ s.Value.length < 3 := by
  constructor
  · rintro ⟨t, e, h⟩
    by_contra hlen
    rcases Parse_long env seps spare s (by omega) with h' | ⟨t', h', _⟩
    · rw [h'] at h; simp at h
    · rw [h'] at h; simp at h
  · intro h
    exact ⟨s, _, Parse_short env seps spare s h⟩

/-- `Parse` returns, with no error, on every value of 3 bytes or more whose scan
cannot run past the end: the slice has spare capacity, or the escape character
is ASCII and not the last byte of the value. -/
theorem Parse_returns (env : Env) (seps : Delimeters) (spare : Bytes) (s : Segment)
    (h : 3 ≤ s.Value.length)
    (hsafe : spare ≠ [] ∨ (seps.Escape < 0x80 ∧ s.Value.getLast? ≠ some seps.Escape)) :
    ∃ t, s.Parse env seps spare = Outcome.done (t, none) ∧ Grows env seps 0 s t := by
  rw [Parse_eq_scan env seps spare s h]
  exact scan_done env seps _ s.Value spare hsafe _ s.Value 0 0 0 s [] (by simp) (le_refl _)
    (by simp) (by omega)

/-- Outside a header the loop never touches `maxSeq`: it only appends parsed
Fields, and `forceField`, which alone raises `maxSeq`, is not called. -/
theorem scan_keeps_maxSeq (env : Env) (seps : Delimeters) (buf : Bytes) :
    ∀ (fuel : Nat) (rest : Bytes) (i ii : Nat) (seq : Int) (s t : Segment) (e : Option Err),
      scan env seps false buf fuel rest i ii seq s = Outcome.done (t, e) →
      t.maxSeq = s.maxSeq := by
  intro fuel
  induction fuel with
  | zero => intro rest i ii seq s t e h; simp [scan] at h
  | succ fuel ih =>
    intro rest i ii seq s t e h
    rw [scan_succ] at h
    simp only [Bool.false_eq_true, false_and, if_false] at h
    cases hs : slice buf i (ii + 1 - 1) with
    | none =>
      rw [hs] at h
      split_ifs at h
      · simp only [Outcome.done.injEq, Prod.mk.injEq] at h
        rw [← h.1]
      · exact ih _ _ _ _ _ _ _ h
      · exact ih _ _ _ _ _ _ _ h
    | some v =>
      rw [hs] at h
      simp only [] at h
      split_ifs at h
      · simp only [Outcome.done.injEq, Prod.mk.injEq] at h
        rw [← h.1]; rfl
      · simp only [Outcome.done.injEq, Prod.mk.injEq] at h
        rw [← h.1]
      · have h' := ih _ _ _ _ _ _ _ h
        exact h'
      · have h' := ih _ _ _ _ _ _ _ h
        exact h'
      · exact ih _ _ _ _ _ _ _ h
      · exact ih _ _ _ _ _ _ _ h

/-- After `Parse` of a value that is not a header, `maxSeq` is what it was
before, whatever sequence numbers the appended Fields carry. -/
theorem Parse_keeps_maxSeq (env : Env) (seps : Delimeters) (spare : Bytes) (s t : Segment)
    (e : Option Err) (hmsh : s.Value.take 3 ≠ mshCode)
    (h : s.Parse env seps spare = Outcome.done (t, e)) : t.maxSeq = s.maxSeq := by
  by_cases h3 : s.Value.length < 3
  · rw [Parse_short env seps spare s h3] at h
    simp only [Outcome.done.injEq, Prod.mk.injEq] at h
    rw [← h.1]
  · rw [Parse_eq_scan env seps spare s (by omega)] at h
    have hm : decide (s.Value.take 3 = mshCode) = false := by simpa using hmsh
    rw [hm] at h
    exact scan_keeps_maxSeq env seps _ _ _ _ _ _ s t e h

/-! ## C1: Round trip -/

/-- C1, as amended. Round trip on a well-formed value that is not a header and has
no unescaped repetition delimiter: if `x` (at least 3 bytes, not starting with
`MSH`) is a list of atoms joined by the field delimiter and consists of plain
bytes, and the field-level parse keeps a Field's Value, then `Parse` on a fresh
segment returns no error and `encode` of the result is `x` again. -/
theorem Parse_encode_round_trip (env : Env) (seps : Delimeters) (spare : Bytes)
    (as : List Bytes) (x : Bytes)
    (hV : ∀ sp f, (env.fieldParse sp f).Value = f.Value)
    (hx : x = bytesJoin [seps.Field] as) (hne : as ≠ [])
    (hatoms : ∀ a ∈ as, atom seps a = true)
    (hplain : ∀ b ∈ x, plain env seps b)
    (h3 : 3 ≤ x.length) (hmsh : x.take 3 ≠ mshCode) :
    ∃ t, (fresh x).Parse env seps spare = Outcome.done (t, none) ∧ t.encode seps = x := by
  subst hx
  have hFp : 2 ≤ as.length → plain env seps seps.Field :=
    fun h => hplain _ (sep_mem_bytesJoin seps.Field as h)
  have key := Parse_layout env seps spare (as.map fun a => [a]) (by simpa using hne)
    (by simpa using hFp)
    (by
      intro ps hps
      obtain ⟨a, ha, rfl⟩ := List.mem_map.mp hps
      refine ⟨by simp, ?_, by simp⟩
      intro p hp
      simp at hp
      subst hp
      exact ⟨hatoms p ha, fun b hb => hplain b (mem_bytesJoin_of_mem _ b as p ha hb)⟩)
    (by rw [layout_singletons]; exact h3) (by rw [layout_singletons]; exact hmsh)
  rw [layout_singletons] at key
  refine ⟨_, key, ?_⟩
  rw [encode_eq]
  simp only [Segment.withMore, fresh, List.nil_append]
  rw [expected_singletons_values env hV seps as 0]
  apply bytesJoin_sep_irrelevant
  intro h
  simp [runeBytes, (hFp h).1]

theorem Parse_encode_round_trip_witness :
    ∃ t, (fresh (ascii "PID|a\\|b||c|")).Parse specEnv stdSeps [] = Outcome.done (t, none) ∧
      t.encode stdSeps = ascii "PID|a\\|b||c|" :=
  Parse_encode_round_trip specEnv stdSeps []
    [ascii "PID", ascii "a\\|b", [], ascii "c", []] (ascii "PID|a\\|b||c|")
    (fun _ _ => rfl) (by decide) (by decide) (by decide) (by decide) (by decide) (by decide)

/-- C1 fails as stated. With the usual delimiters, `Parse` then `encode` turns
`PID|a~b` into `PID|a|b` (the repetition delimiter is lost) and `MSH|^~\&|X`
into `MSH|||^~\&|X` (the forced separator Field adds two delimiters); a value
holding the two-byte rune U+00E9, a NUL byte, or the end-of-message byte with
the flag set, does not come back either. -/
theorem Parse_encode_round_trip_fails :
    (∃ t, (fresh (ascii "PID|a~b")).Parse specEnv stdSeps [] = Outcome.done (t, none) ∧
      t.encode stdSeps = ascii "PID|a|b" ∧ t.encode stdSeps ≠ ascii "PID|a~b") ∧
    (∃ t, (fresh (ascii "MSH|^~\\&|X")).Parse specEnv stdSeps [] = Outcome.done (t, none) ∧
      t.encode stdSeps = ascii "MSH|||^~\\&|X" ∧ t.encode stdSeps ≠ ascii "MSH|^~\\&|X") ∧
    (∃ t, (fresh (ascii "PID|" ++ [0xC3, 0xA9] ++ ascii "|x")).Parse specEnv stdSeps []
        = Outcome.done (t, none) ∧
      t.encode stdSeps = ascii "PID|" ++ [0xC3] ++ ascii "||" ∧
      t.encode stdSeps ≠ ascii "PID|" ++ [0xC3, 0xA9] ++ ascii "|x") ∧
    (∃ t, (fresh (ascii "PID|a" ++ [0] ++ ascii "b")).Parse specEnv stdSeps []
        = Outcome.done (t, none) ∧
      t.encode stdSeps = ascii "PID|a" ∧
      t.encode stdSeps ≠ ascii "PID|a" ++ [0] ++ ascii "b") ∧
    (∃ t, (fresh (ascii "PID|a" ++ [0x1C] ++ ascii "b")).Parse specEnv stdSeps []
        = Outcome.done (t, none) ∧
      t.encode stdSeps = ascii "PID|a" ∧
      t.encode stdSeps ≠ ascii "PID|a" ++ [0x1C] ++ ascii "b") :=
  ⟨⟨_, rfl, by decide, by decide⟩, ⟨_, rfl, by decide, by decide⟩,
   ⟨_, rfl, by decide, by decide⟩, ⟨_, rfl, by decide, by decide⟩,
   ⟨_, rfl, by decide, by decide⟩⟩

/-! ## C2: The error of `Parse` -/

/-- C2, at its failing input. On the three-byte value `ab\` held in a slice with no
spare capacity (a `[]byte` literal of the bytes `a`, `b` and the escape
character), with the usual delimiters, the escape branch moves `ii` to 4 with
no byte left to skip, the next turn of the loop takes `s.Value[0:4]`, and
`Parse` panics instead of returning. -/
theorem Parse_dangling_escape_panics :
    (fresh (ascii "ab\\")).Parse specEnv stdSeps [] = Outcome.panic := by
  decide

/-! ## C3: Header: the separator Field -/

/-- C3, as amended. Header separator self-reference: let the field, repetition and
escape characters be none of `M`, `S`, `H`, the field delimiter an ASCII
character other than NUL, and, when the line-feed-termination flag is set, the
end-of-message character none of `M`, `S`, `H` and the field delimiter. For
every value that starts with `MSH` and the field delimiter, and whose scan
cannot run past the end (the slice has spare capacity, or the escape character
is ASCII and not the last byte), `Parse` on a fresh segment returns no error,
and `Field(1)` then succeeds with the Field whose Value is the one-byte field
delimiter, held in one Component with one SubComponent of the same value (the
field-level parse keeping SeqNum). -/
theorem Parse_header_separator_field (env : Env) (seps : Delimeters) (spare tail : Bytes)
    (hS : ∀ sp f, (env.fieldParse sp f).SeqNum = f.SeqNum)
    (hF : seps.Field < 0x80) (hF0 : seps.Field ≠ 0)
    (hFm : seps.Field ∉ mshCode) (hRm : seps.Repetition ∉ mshCode)
    (hEm : seps.Escape ∉ mshCode)
    (hEnd : seps.LFTermMsg = true → env.endMsg ∉ mshCode ∧ env.endMsg ≠ seps.Field)
    (hsafe : spare ≠ [] ∨ (seps.Escape < 0x80 ∧
      (mshCode ++ seps.Field :: tail).getLast? ≠ some seps.Escape)) :
    ∃ t, (fresh (mshCode ++ seps.Field :: tail)).Parse env seps spare = Outcome.done (t, none) ∧
      t.Field 1 =
        (some { Value := [seps.Field], SeqNum := 1,
                Components := [{ Value := [seps.Field],
                                 SubComponents := [{ Value := [seps.Field] }] }] }, none) := by
  rw [Parse_header_eq_scan,
    scan_header_start env seps spare tail (tail.length + 1) _ hF hF0 hFm hRm hEm hEnd]
  obtain ⟨t, ht, hg⟩ := scan_done env seps true (mshCode ++ seps.Field :: tail) spare hsafe
    (tail.length + 1) tail 4 4 2
    (((fresh (mshCode ++ seps.Field :: tail)).appendParsed env seps mshCode 0).forceField
      [seps.Field] 1)
    (mshCode ++ [seps.Field]) (by simp) (le_refl _) (by simp [mshCode]) (by omega)
  refine ⟨t, ht, ?_⟩
  obtain ⟨extra, he, _⟩ := hg.seq_le hS
  simp only [Segment.Field, he]
  simp [Segment.forceField, Segment.appendParsed, fresh, findField, hS]

theorem Parse_header_separator_field_witness :
    ∃ t, (fresh (ascii "MSH|^~\\&|X")).Parse specEnv stdSeps [] = Outcome.done (t, none) ∧
      t.Field 1 =
        (some { Value := ascii "|", SeqNum := 1,
                Components := [{ Value := ascii "|",
                                 SubComponents := [{ Value := ascii "|" }] }] }, none) :=
  Parse_header_separator_field specEnv stdSeps [] (ascii "^~\\&|X") (fun _ _ => rfl)
    (by decide) (by decide) (by decide) (by decide) (by decide) (by decide)
    (Or.inr (by decide))

/-- C3 fails as stated. A delimiter set whose field delimiter is NUL, or the
end-of-message byte 0x1C with the flag set, has only ASCII characters other
than `M`, `S`, `H`, yet `Parse` of `MSH` followed by that delimiter stops at the
delimiter and `Field(1)` is not found; and on `MSH|^~\&|a\`, held in a slice
with no spare capacity, `Parse` panics. -/
theorem Parse_header_separator_field_fails :
    (∃ t, (fresh (ascii "MSH" ++ [0] ++ ascii "^~\\&")).Parse specEnv
        { stdSeps with Field := 0 } [] = Outcome.done (t, none) ∧
      t.Field 1 = (none, some Err.fieldNotFound)) ∧
    (∃ t, (fresh (ascii "MSH" ++ [0x1C] ++ ascii "^~\\&")).Parse specEnv
        { stdSeps with Field := 0x1C } [] = Outcome.done (t, none) ∧
      t.Field 1 = (none, some Err.fieldNotFound)) ∧
    (fresh (ascii "MSH|^~\\&|a\\")).Parse specEnv stdSeps [] = Outcome.panic :=
  ⟨⟨_, rfl, by decide⟩, ⟨_, rfl, by decide⟩, by decide⟩

/-! ## C4: Header: the encoding-characters Field -/

/-- C4, as amended. Header encoding-characters field: let the delimiter set be as
in C3, the field delimiter moreover other than the repetition and escape
characters. For every header value `MSH ++ [F] ++ enc ++ rest`, `enc` made of
plain bytes other than `F` (it may hold the repetition and escape characters)
and `rest` empty or beginning with `F`, whose scan cannot run past the end,
`Parse` on a fresh segment returns no error and `AllFields(2)` then succeeds
with exactly one Field, of SeqNum 2 and Value `enc` (the field-level parse
keeping Value and SeqNum). -/
theorem Parse_header_encoding_field (env : Env) (seps : Delimeters) (spare enc rest : Bytes)
    (hS : ∀ sp f, (env.fieldParse sp f).SeqNum = f.SeqNum)
    (hV : ∀ sp f, (env.fieldParse sp f).Value = f.Value)
    (hF : seps.Field < 0x80) (hF0 : seps.Field ≠ 0)
    (hFm : seps.Field ∉ mshCode) (hRm : seps.Repetition ∉ mshCode)
    (hEm : seps.Escape ∉ mshCode)
    (hFR : seps.Field ≠ seps.Repetition) (hFE : seps.Field ≠ seps.Escape)
    (hEnd : seps.LFTermMsg = true → env.endMsg ∉ mshCode ∧ env.endMsg ≠ seps.Field)
    (henc : ∀ b ∈ enc, plain env seps b ∧ b ≠ seps.Field)
    (hrest : rest = [] ∨ ∃ r, rest = seps.Field :: r)
    (hsafe : spare ≠ [] ∨ (seps.Escape < 0x80 ∧
      (mshCode ++ seps.Field :: (enc ++ rest)).getLast? ≠ some seps.Escape)) :
    ∃ t f, (fresh (mshCode ++ seps.Field :: (enc ++ rest))).Parse env seps spare
        = Outcome.done (t, none) ∧
      t.AllFields 2 = ([f], none) ∧ f.Value = enc ∧ f.SeqNum = 2 := by
  have hFp : plain env seps seps.Field := ⟨hF, hF0, fun h e => (hEnd h).2 e.symm⟩
  rw [Parse_header_eq_scan,
    scan_header_start env seps spare (enc ++ rest) ((enc ++ rest).length + 1) _ hF hF0 hFm hRm
      hEm hEnd]
  have hfuel : (enc ++ rest).length + 1 = (rest.length + 1) + enc.length := by simp; omega
  rw [hfuel, scan_run env seps true _ 2 _ 4 rest (rest.length + 1) enc 4
    (fun b hb => ⟨(henc b hb).1, (henc b hb).2, Or.inr ⟨rfl, rfl⟩⟩)]
  have hsl : slice (mshCode ++ seps.Field :: (enc ++ rest) ++ spare) 4 (4 + enc.length)
      = some enc := by
    have := slice_mid (mshCode ++ [seps.Field]) enc (rest ++ spare)
    simpa [mshCode] using this
  rcases hrest with hr | ⟨r, hr⟩
  · subst hr
    simp only [List.length_nil]
    rw [scan_step_end env seps true _ 0 4 (4 + enc.length) 2 _ enc (by omega) hsl]
    refine ⟨_, parsedField env seps enc 2, rfl, ?_, by simp [parsedField, hV],
      by simp [parsedField, hS]⟩
    rw [AllFields_of_filter _ 2 [parsedField env seps enc 2]]
    · simp
    · simp [Segment.forceField, Segment.appendParsed, fresh, parsedField, hS]
  · subst hr
    simp only [List.length_cons]
    rw [scan_step_field_msh2 env seps _ (r.length + 1) r 4 (4 + enc.length) _ enc hFp hFR hFE hsl]
    obtain ⟨t, ht, hg⟩ := scan_done env seps true (mshCode ++ seps.Field :: (enc ++ seps.Field :: r))
      spare hsafe (r.length + 1) r (4 + enc.length + 1) (4 + enc.length + 1) 3
      ((((fresh (mshCode ++ seps.Field :: (enc ++ seps.Field :: r))).appendParsed env seps
        mshCode 0).forceField [seps.Field] 1).forceField enc 2)
      (mshCode ++ seps.Field :: (enc ++ [seps.Field])) (by simp) (le_refl _)
      (by simp [mshCode]; omega) (by omega)
    refine ⟨t, forcedField enc 2, ht, ?_, rfl, rfl⟩
    obtain ⟨extra, he, hx⟩ := hg.seq_le hS
    rw [AllFields_of_filter t 2 [forcedField enc 2]]
    · simp
    · rw [he, List.filter_append]
      have h2 : extra.filter (fun fld => decide (fld.SeqNum = 2)) = [] := by
        apply List.filter_eq_nil_iff.mpr
        intro f hf
        have := hx f hf
        simp; omega
      rw [h2]
      simp [Segment.forceField, Segment.appendParsed, fresh, forcedField, hS]

theorem Parse_header_encoding_field_witness :
    ∃ t f, (fresh (ascii "MSH|^~\\&|X")).Parse specEnv stdSeps [] = Outcome.done (t, none) ∧
      t.AllFields 2 = ([f], none) ∧ f.Value = ascii "^~\\&" ∧ f.SeqNum = 2 :=
  Parse_header_encoding_field specEnv stdSeps [] (ascii "^~\\&") (ascii "|X")
    (fun _ _ => rfl) (fun _ _ => rfl)
    (by decide) (by decide) (by decide) (by decide) (by decide) (by decide) (by decide)
    (by decide) (by decide) (Or.inr ⟨_, rfl⟩) (Or.inr (by decide))

/-- C4 fails as stated. With the field delimiter NUL, `Parse` of `MSH`, NUL,
`^~\&` stops at the NUL and no Field has sequence 2. With the field delimiter
`H`, the header `MSHH^~\&` gets an empty Field at sequence 2; with the escape
character `H`, the delimiter after `MSH` is skipped and no Field has sequence
2. With the field delimiter also the repetition delimiter, or also the escape
character, the `|` after `^~\&` is passed over as an encoding character and
the Field at sequence 2 is `^~\&|X`. And on `MSH|^~\&|a\`, held in a slice with
no spare capacity, `Parse` panics. -/
theorem Parse_header_encoding_field_fails :
    (∃ t, (fresh (ascii "MSH" ++ [0] ++ ascii "^~\\&")).Parse specEnv
        { stdSeps with Field := 0 } [] = Outcome.done (t, none) ∧
      t.AllFields 2 = ([], some Err.fieldNotFound)) ∧
    (∃ t, (fresh (ascii "MSHH^~\\&")).Parse specEnv
        { stdSeps with Field := 0x48 } [] = Outcome.done (t, none) ∧
      (t.AllFields 2).1.map (fun f => f.Value) = [[]]) ∧
    (∃ t, (fresh (ascii "MSH|^~\\&")).Parse specEnv
        { stdSeps with Escape := 0x48 } [] = Outcome.done (t, none) ∧
      t.AllFields 2 = ([], some Err.fieldNotFound)) ∧
    (∃ t, (fresh (ascii "MSH|^~\\&|X")).Parse specEnv
        { stdSeps with Repetition := 0x7C } [] = Outcome.done (t, none) ∧
      (t.AllFields 2).1.map (fun f => f.Value) = [ascii "^~\\&|X"]) ∧
    (∃ t, (fresh (ascii "MSH|^~\\&|X")).Parse specEnv
        { stdSeps with Escape := 0x7C } [] = Outcome.done (t, none) ∧
      (t.AllFields 2).1.map (fun f => f.Value) = [ascii "^~\\&|X"]) ∧
    (fresh (ascii "MSH|^~\\&|a\\")).Parse specEnv stdSeps [] = Outcome.panic :=
  ⟨⟨_, rfl, by decide⟩, ⟨_, rfl, by decide⟩, ⟨_, rfl, by decide⟩, ⟨_, rfl, by decide⟩,
   ⟨_, rfl, by decide⟩, by decide⟩

/-! ## C5: Repetitions -/

/-- C5, as amended. Repetition grouping on a well-formed value: let the field and
repetition delimiters be distinct plain bytes, and let the value (at least 3
bytes, not a header) be the layout of `fields`, every piece an atom made of
plain bytes. If the field at sequence `N` is the pieces `ps`, then `Parse` on a
fresh segment returns no error and `AllFields(N)` succeeds with exactly one
Field per piece, each with SeqNum `N`, whose Values are the pieces in order
(the field-level parse keeping Value and SeqNum). -/
theorem Parse_repetition_grouping (env : Env) (seps : Delimeters) (spare : Bytes)
    (fields : List (List Bytes)) (N : Nat) (ps : List Bytes)
    (hS : ∀ sp f, (env.fieldParse sp f).SeqNum = f.SeqNum)
    (hV : ∀ sp f, (env.fieldParse sp f).Value = f.Value)
    (hF : plain env seps seps.Field) (hR : plain env seps seps.Repetition)
    (hRF : seps.Repetition ≠ seps.Field)
    (hfs : ∀ qs ∈ fields, qs ≠ [] ∧ ∀ p ∈ qs, atom seps p = true ∧ ∀ b ∈ p, plain env seps b)
    (hN : fields.get? N = some ps)
    (h3 : 3 ≤ (layout seps fields).length) (hmsh : (layout seps fields).take 3 ≠ mshCode) :
    ∃ t, (fresh (layout seps fields)).Parse env seps spare = Outcome.done (t, none) ∧
      (t.AllFields N).2 = none ∧
      (t.AllFields N).1.length = ps.length ∧
      (∀ f ∈ (t.AllFields N).1, f.SeqNum = N) ∧
      (t.AllFields N).1.map (fun f => f.Value) = ps := by
  have hne : fields ≠ [] := by
    intro h; rw [h] at hN; simp at hN
  have key := Parse_layout env seps spare fields hne (fun _ => hF)
    (fun qs hqs => ⟨(hfs qs hqs).1, (hfs qs hqs).2, fun _ => ⟨hR, hRF⟩⟩) h3 hmsh
  refine ⟨_, key, ?_⟩
  have hfil := expected_filter env hS seps fields N 0 ps hN
  simp only [zero_add] at hfil
  have hps : ps ≠ [] := (hfs ps (List.get?_mem hN)).1
  have hall := AllFields_of_filter ((fresh (layout seps fields)).withMore
    (expected env seps 0 fields)) N _ (by simpa [Segment.withMore, fresh] using hfil)
  rw [hall]
  refine ⟨?_, by simp, ?_, ?_⟩
  · have : ps.length ≠ 0 := fun h => hps (List.length_eq_zero.mp h)
    simp [this]
  · intro f hf
    obtain ⟨p, _, rfl⟩ := List.mem_map.mp hf
    simp [parsedField, hS]
  · simp [parsedField, hV, Function.comp_def]

theorem Parse_repetition_grouping_witness :
    ∃ t, (fresh (ascii "PID|a~b~c|d")).Parse specEnv stdSeps [] = Outcome.done (t, none) ∧
      (t.AllFields 1).2 = none ∧
      (t.AllFields 1).1.length = 3 ∧
      (∀ f ∈ (t.AllFields 1).1, f.SeqNum = 1) ∧
      (t.AllFields 1).1.map (fun f => f.Value) = [ascii "a", ascii "b", ascii "c"] :=
  Parse_repetition_grouping specEnv stdSeps []
    [[ascii "PID"], [ascii "a", ascii "b", ascii "c"], [ascii "d"]] 1
    [ascii "a", ascii "b", ascii "c"]
    (fun _ _ => rfl) (fun _ _ => rfl) (by decide) (by decide) (by decide) (by decide)
    (by decide) (by decide) (by decide)

/-- C5 fails as stated. When the repetition delimiter is the field delimiter, the
pieces of `PID|a|b|c` get the sequences 1, 2, 3 and `AllFields(1)` holds one
Field. A NUL byte, or the end-of-message byte with the flag set, ends the scan
before the field is reached, so `AllFields(1)` fails on such ASCII values. And
on `PID|a~b~c|d\`, held in a slice with no spare capacity, `Parse` panics. -/
theorem Parse_repetition_grouping_fails :
    (∃ t, (fresh (ascii "PID|a|b|c")).Parse specEnv
        { stdSeps with Repetition := 0x7C } [] = Outcome.done (t, none) ∧
      (t.AllFields 1).1.map (fun f => f.Value) = [ascii "a"]) ∧
    (∃ t, (fresh (ascii "PI" ++ [0] ++ ascii "|a~b~c")).Parse specEnv stdSeps []
        = Outcome.done (t, none) ∧
      t.AllFields 1 = ([], some Err.fieldNotFound)) ∧
    (∃ t, (fresh (ascii "PI" ++ [0x1C] ++ ascii "|a~b~c")).Parse specEnv stdSeps []
        = Outcome.done (t, none) ∧
      t.AllFields 1 = ([], some Err.fieldNotFound)) ∧
    (fresh (ascii "PID|a~b~c|d\\")).Parse specEnv stdSeps [] = Outcome.panic :=
  ⟨⟨_, rfl, by decide⟩, ⟨_, rfl, by decide⟩, ⟨_, rfl, by decide⟩, by decide⟩

/-! ## C6: Escaped delimiters -/

/-- C6, as amended. Escape skipping: let the escape character be a plain byte
(ASCII, not NUL, not the end-of-message character when the flag is set) other
than the field and repetition delimiters. For every non-header value
`x = u ++ [escape, fieldDelimiter] ++ v` of at least 3 bytes, `u` and `v` made
of plain bytes that are none of the three delimiters, `Parse` on a fresh
segment returns no error and yields exactly one Field, the one parsed from the
whole of `x` at sequence 0; its Value is `x` and its SeqNum 0 when the
field-level parse keeps them. -/
theorem Parse_escaped_field_delimiter (env : Env) (seps : Delimeters) (spare u v : Bytes)
    (hE : plain env seps seps.Escape) (hEF : seps.Escape ≠ seps.Field)
    (hER : seps.Escape ≠ seps.Repetition)
    (hu : ∀ b ∈ u, plain env seps b ∧ b ≠ seps.Field ∧ b ≠ seps.Repetition ∧ b ≠ seps.Escape)
    (hv : ∀ b ∈ v, plain env seps b ∧ b ≠ seps.Field ∧ b ≠ seps.Repetition ∧ b ≠ seps.Escape)
    (h3 : 3 ≤ (u ++ [seps.Escape, seps.Field] ++ v).length)
    (hmsh : (u ++ [seps.Escape, seps.Field] ++ v).take 3 ≠ mshCode) :
    (fresh (u ++ [seps.Escape, seps.Field] ++ v)).Parse env seps spare =
      Outcome.done
        ({ Fields := [parsedField env seps (u ++ [seps.Escape, seps.Field] ++ v) 0],
           Value := u ++ [seps.Escape, seps.Field] ++ v, maxSeq := 0 }, none) ∧
    ((∀ sp f, (env.fieldParse sp f).Value = f.Value) →
      (parsedField env seps (u ++ [seps.Escape, seps.Field] ++ v) 0).Value =
        u ++ [seps.Escape, seps.Field] ++ v) ∧
    ((∀ sp f, (env.fieldParse sp f).SeqNum = f.SeqNum) →
      (parsedField env seps (u ++ [seps.Escape, seps.Field] ++ v) 0).SeqNum = 0) := by
  refine ⟨?_, fun hV => by simp [parsedField, hV], fun hS => by simp [parsedField, hS]⟩
  rw [Parse_eq_scan env seps spare _ h3]
  have hm : decide ((fresh (u ++ [seps.Escape, seps.Field] ++ v)).Value.take 3 = mshCode)
      = false := by
    simpa [fresh] using hmsh
  rw [hm]
  simp only [fresh]
  have hfuel : (u ++ [seps.Escape, seps.Field] ++ v).length + 1 = ((1 + 1 + v.length) + 1) + u.length := by
    simp; omega
  have e1 : u ++ [seps.Escape, seps.Field] ++ v = u ++ (seps.Escape :: seps.Field :: v) := by simp
  rw [hfuel]
  conv_lhs => arg 6; rw [e1]
  rw [scan_run env seps false _ 0 _ 0 _ _ u 0
    (fun b hb => ⟨(hu b hb).1, (hu b hb).2.1, Or.inl (hu b hb).2.2⟩)]
  rw [scan_step_esc env seps false _ _ _ 0 _ 0 _ hE hEF hER (Or.inl rfl)]
  rw [ReadRune_rest_of_ascii seps.Field v (fun b hb => (hv b hb).1.1)]
  have e2 : scan env seps false (u ++ [seps.Escape, seps.Field] ++ v ++ spare) (1 + 1 + v.length) v 0
      (0 + u.length + 2) 0 { Fields := [], Value := u ++ [seps.Escape, seps.Field] ++ v, maxSeq := 0 }
      = scan env seps false (u ++ [seps.Escape, seps.Field] ++ v ++ spare) (1 + 1) [] 0
      (0 + u.length + 2 + v.length) 0
        { Fields := [], Value := u ++ [seps.Escape, seps.Field] ++ v, maxSeq := 0 } := by
    have := scan_run env seps false (u ++ [seps.Escape, seps.Field] ++ v ++ spare) 0
      { Fields := [], Value := u ++ [seps.Escape, seps.Field] ++ v, maxSeq := 0 } 0 [] (1 + 1) v
      (0 + u.length + 2) (fun b hb => ⟨(hv b hb).1, (hv b hb).2.1, Or.inl (hv b hb).2.2⟩)
    simpa using this
  rw [e2]
  rw [scan_step_end env seps false _ 1 0 _ 0 _ (u ++ [seps.Escape, seps.Field] ++ v) (by omega)]
  · rfl
  · have := slice_mid [] (u ++ [seps.Escape, seps.Field] ++ v) spare
    simp only [List.nil_append, List.length_nil, Nat.zero_add] at this
    convert this using 2
    simp; omega

theorem Parse_escaped_field_delimiter_witness :
    (fresh (ascii "AB\\|C")).Parse specEnv stdSeps [] =
      Outcome.done
        ({ Fields := [parsedField specEnv stdSeps (ascii "AB\\|C") 0],
           Value := ascii "AB\\|C", maxSeq := 0 }, none) ∧
    (parsedField specEnv stdSeps (ascii "AB\\|C") 0).Value = ascii "AB\\|C" ∧
    (parsedField specEnv stdSeps (ascii "AB\\|C") 0).SeqNum = 0 :=
  have h := Parse_escaped_field_delimiter specEnv stdSeps [] (ascii "AB") (ascii "C")
    (by decide) (by decide) (by decide) (by decide) (by decide) (by decide) (by decide)
  ⟨h.1, h.2.1 (fun _ _ => rfl), h.2.2 (fun _ _ => rfl)⟩

/-- C6 fails as stated. The value `ab`, escape, field delimiter, `c` is split, or
cut short, whenever the escape character is taken for something else first:
when it is also the field delimiter or the repetition delimiter, when it is
NUL or (flag set) the end-of-message byte, and when it is not ASCII (the byte
0xE9 is read as U+FFFD, not as the escape character). -/
theorem Parse_escaped_field_delimiter_fails :
    (∃ t, (fresh (ascii "ab" ++ [0x7C, 0x7C] ++ ascii "c")).Parse specEnv
        { stdSeps with Escape := 0x7C } [] = Outcome.done (t, none) ∧
      t.Fields.map (fun f => f.Value) = [ascii "ab", [], ascii "c"]) ∧
    (∃ t, (fresh (ascii "ab" ++ [0x7E, 0x7C] ++ ascii "c")).Parse specEnv
        { stdSeps with Escape := 0x7E } [] = Outcome.done (t, none) ∧
      t.Fields.map (fun f => f.Value) = [ascii "ab", [], ascii "c"]) ∧
    (∃ t, (fresh (ascii "ab" ++ [0, 0x7C] ++ ascii "c")).Parse specEnv
        { stdSeps with Escape := 0 } [] = Outcome.done (t, none) ∧
      t.Fields.map (fun f => f.Value) = [ascii "ab"]) ∧
    (∃ t, (fresh (ascii "ab" ++ [0x1C, 0x7C] ++ ascii "c")).Parse specEnv
        { stdSeps with Escape := 0x1C } [] = Outcome.done (t, none) ∧
      t.Fields.map (fun f => f.Value) = [ascii "ab"]) ∧
    (∃ t, (fresh (ascii "ab" ++ [0xE9, 0x7C] ++ ascii "c")).Parse specEnv
        { stdSeps with Escape := 0xE9 } [] = Outcome.done (t, none) ∧
      t.Fields.map (fun f => f.Value) = [ascii "ab" ++ [0xE9], ascii "c"]) :=
  ⟨⟨_, rfl, by decide⟩, ⟨_, rfl, by decide⟩, ⟨_, rfl, by decide⟩, ⟨_, rfl, by decide⟩,
   ⟨_, rfl, by decide⟩⟩

/-! ## C7: Gap filling by `Set` -/

/-- C7, at its failing input. After `Parse` of `PID|a|b` (sequences 0, 1, 2 present,
`maxSeq` left at 0), `Set` at field sequence 7 succeeds and appends seven Fields,
for the sequences 1 to 7: the sequences 1 and 2, which already existed, are
created a second time, and the value gains seven delimiters instead of five. -/
theorem Set_gap_fill_duplicates :
    (fresh (ascii "PID|a|b")).Parse specEnv stdSeps [] = Outcome.done (pidAB, none) ∧
    (pidAB.Set specEnv (fieldLoc 7) (ascii "v") stdSeps).2 = none ∧
    (pidAB.Set specEnv (fieldLoc 7) (ascii "v") stdSeps).1.Fields.map (fun f => f.SeqNum)
      = [0, 1, 2, 1, 2, 3, 4, 5, 6, 7] ∧
    (pidAB.Set specEnv (fieldLoc 7) (ascii "v") stdSeps).1.Value = ascii "PID|a|b|||||||v" := by
  decide

/-! ## C8: `Set` on a sequence already present -/

/-- C8, at its failing input. After `Parse` of `PID|a|b`, `Set` at field sequence
1, which a parsed Field already carries, succeeds and appends a fourth Field
(an empty one at sequence 1), so that the value gains a trailing delimiter. -/
theorem Set_existing_adds_field :
    (fresh (ascii "PID|a|b")).Parse specEnv stdSeps [] = Outcome.done (pidAB, none) ∧
    (pidAB.Set specEnv (fieldLoc 1) (ascii "v") stdSeps).2 = none ∧
    pidAB.Fields.length = 3 ∧
    (pidAB.Set specEnv (fieldLoc 1) (ascii "v") stdSeps).1.Fields.length = 4 ∧
    (pidAB.Set specEnv (fieldLoc 1) (ascii "v") stdSeps).1.Fields.map
      (fun f => (f.Value, f.SeqNum)) = [(ascii "PID", 0), (ascii "v", 1), (ascii "b", 2), ([], 1)] ∧
    (pidAB.Set specEnv (fieldLoc 1) (ascii "v") stdSeps).1.Value = ascii "PID|v|b|" := by
  decide

/-! ## C9: Value and Fields after `Set` -/

/-- C9. Value/tree consistency after a write: when `Set` returns no error, the
segment's Value is the Values of its Fields, in stored order, joined with the
bytes of the field delimiter (which is what `encode` gives), and `Get` with a
whole-segment location (field sequence -1) then returns exactly that text, with
no error. -/
theorem Set_value_consistent (env : Env) (s : Segment) (l : Location) (val : Bytes)
    (seps : Delimeters) (h : (s.Set env l val seps).2 = none) :
    (s.Set env l val seps).1.Value =
      bytesJoin (runeBytes seps.Field)
        ((s.Set env l val seps).1.Fields.map (fun f => f.Value)) ∧
    (s.Set env l val seps).1.Value = (s.Set env l val seps).1.encode seps ∧
    ∀ l' : Location, l'.FieldSeq = -1 →
      (s.Set env l val seps).1.Get env l' =
        (bytesJoin (runeBytes seps.Field)
          ((s.Set env l val seps).1.Fields.map (fun f => f.Value)), none) := by
  have key : (s.Set env l val seps).1.Value = (s.Set env l val seps).1.encode seps := by
    unfold Segment.Set at h ⊢
    by_cases h1 : l.FieldSeq = -1
    · simp [h1] at h
    · simp only [if_neg h1] at h ⊢
      generalize (if s.maxSeq < l.FieldSeq
        then forceGap (l.FieldSeq - s.maxSeq).toNat (s.maxSeq + 1) s else s) = s1 at h ⊢
      cases hf : findField l.FieldSeq s1.Fields with
      | none => simp [hf] at h
      | some fld =>
        simp only [hf] at h ⊢
        cases hs : (env.fieldSet fld l val seps).2 with
        | some err => simp [hs] at h
        | none =>
          simp only [hs]
          rfl
  refine ⟨by rw [key, encode_eq], key, ?_⟩
  intro l' hl'
  simp only [Segment.Get, hl', if_true]
  rw [key, encode_eq]

/-- A segment with no Field yet, as a program builds it before the first write. -/
theorem Set_value_consistent_witness :
    ((fresh []).Set specEnv (fieldLoc 2) (ascii "x") stdSeps).2 = none ∧
    ((fresh []).Set specEnv (fieldLoc 2) (ascii "x") stdSeps).1.Value = ascii "|x" ∧
    ((fresh []).Set specEnv (fieldLoc 2) (ascii "x") stdSeps).1.Get specEnv (fieldLoc (-1)) =
      (ascii "|x", none) := by
  have h := Set_value_consistent specEnv (fresh []) (fieldLoc 2) (ascii "x") stdSeps (by decide)
  refine ⟨by decide, by decide, ?_⟩
  rw [h.2.2 (fieldLoc (-1)) rfl]
  decide

/-! ## C10: Whole-segment writes -/

/-- C10. Whole-segment writes are rejected atomically: `Set` with a location
whose field sequence is the whole-segment sentinel -1 returns the error "Field
is required" and leaves Fields, Value and maxSeq as they were. -/
theorem Set_whole_segment_rejected (env : Env) (s : Segment) (l : Location) (val : Bytes)
    (seps : Delimeters) (h : l.FieldSeq = -1) :
    s.Set env l val seps = (s, some Err.fieldRequired) := by
  simp [Segment.Set, h]

theorem Set_whole_segment_rejected_witness :
    (fieldLoc (-1)).FieldSeq = -1 ∧
    (fresh (ascii "PID|a")).Set specEnv (fieldLoc (-1)) (ascii "x") stdSeps =
      (fresh (ascii "PID|a"), some Err.fieldRequired) :=
  ⟨rfl, Set_whole_segment_rejected specEnv (fresh (ascii "PID|a")) (fieldLoc (-1)) (ascii "x")
    stdSeps rfl⟩

/-! ## Lemmas for C11: `Field` -/

theorem findField_none_iff (i : Int) (fs : List hl7.Field) :
    findField i fs = none ↔ ∀ f ∈ fs, f.SeqNum ≠ i := by
  induction fs with
  | nil => simp [findField]
  | cons f r ih =>
    by_cases h : f.SeqNum = i
    · simp [findField, h]
    · simp [findField, h, ih]

theorem findField_some (i : Int) (fs : List hl7.Field) (f : hl7.Field)
    (h : findField i fs = some f) :
    ∃ pre post, fs = pre ++ f :: post ∧ f.SeqNum = i ∧ ∀ g ∈ pre, g.SeqNum ≠ i := by
  induction fs with
  | nil => simp [findField] at h
  | cons g r ih =>
    by_cases hg : g.SeqNum = i
    · simp only [findField, hg, if_true, Option.some.injEq] at h
      subst h
      exact ⟨[], r, rfl, hg, by simp⟩
    · simp only [findField, hg, if_false] at h
      obtain ⟨pre, post, h1, h2, h3⟩ := ih h
      refine ⟨g :: pre, post, by simp [h1], h2, ?_⟩
      intro x hx
      rcases List.mem_cons.mp hx with rfl | hx
      · exact hg
      · exact h3 x hx

/-! ## C11: `Field` -/

/-- C11. `Field(i)` fails, with "Field not found" and no Field, exactly when no
Field of the segment has SeqNum `i`; otherwise it returns, with no error, the
Field at the smallest index whose SeqNum is `i`: the Fields before it all have
another SeqNum. The method only reads the segment (it has no segment to
return). -/
theorem Field_first_match (s : Segment) (i : Int) :
    ((s.Field i).2 = some Err.fieldNotFound ↔ ∀ f ∈ s.Fields, f.SeqNum ≠ i) ∧
    ((∀ f ∈ s.Fields, f.SeqNum ≠ i) → s.Field i = (none, some Err.fieldNotFound)) ∧
    ((∃ f ∈ s.Fields, f.SeqNum = i) →
      ∃ pre f post, s.Fields = pre ++ f :: post ∧ f.SeqNum = i ∧
        (∀ g ∈ pre, g.SeqNum ≠ i) ∧ s.Field i = (some f, none)) := by
  cases h : findField i s.Fields with
  | none =>
    have hn := (findField_none_iff i s.Fields).mp h
    refine ⟨by simpa [Segment.Field, h] using hn, fun _ => by simp [Segment.Field, h], ?_⟩
    rintro ⟨f, hf, hi⟩
    exact absurd hi (hn f hf)
  | some f =>
    obtain ⟨pre, post, h1, h2, h3⟩ := findField_some i s.Fields f h
    have hex : ¬ ∀ g ∈ s.Fields, g.SeqNum ≠ i := fun hall =>
      hall f (by rw [h1]; simp) h2
    refine ⟨by simp [Segment.Field, h, hex], fun hall => absurd hall hex, ?_⟩
    intro _
    exact ⟨pre, f, post, h1, h2, h3, by simp [Segment.Field, h]⟩

/-! ## C12: `AllFields` -/

/-- C12. `AllFields(i)` returns exactly the filter of the Fields by `SeqNum = i`:
each matching Field once, in stored order. It fails with "Field not found"
exactly when that filter is empty, and then the list it returns is empty;
otherwise it returns no error. -/
theorem AllFields_is_filter (s : Segment) (i : Int) :
    (s.AllFields i).1 = s.Fields.filter (fun fld => decide (fld.SeqNum = i)) ∧
    ((s.AllFields i).2 = some Err.fieldNotFound ↔
      s.Fields.filter (fun fld => decide (fld.SeqNum = i)) = []) ∧
    ((s.AllFields i).2 = none ↔
      s.Fields.filter (fun fld => decide (fld.SeqNum = i)) ≠ []) ∧
    ((s.AllFields i).2 = some Err.fieldNotFound → (s.AllFields i).1 = []) := by
  rw [AllFields_of_filter s i _ rfl]
  cases h : s.Fields.filter (fun fld => decide (fld.SeqNum = i)) with
  | nil => simp
  | cons f r => simp

/-! ## Lemmas for C13: what `GetAll` returns with an error -/

/-- When the loop of `GetAll` ends on an error, the error is that of the first
Field whose field-level `Get` fails, and the list returned holds the values
gathered before the loop and from the Fields before that one. -/
theorem getAllLoop_error (env : Env) (l : Location) :
    ∀ (flds : List hl7.Field) (vals r : List Bytes) (e : Err),
      getAllLoop env l flds vals = (r, some e) →
      ∃ pre f post, flds = pre ++ f :: post ∧
        (∀ g ∈ pre, (env.fieldGet g l).2 = none) ∧ (env.fieldGet f l).2 = some e ∧
        r = vals ++ pre.map (fun g => (env.fieldGet g l).1) := by
  intro flds
  induction flds with
  | nil => intro vals r e h; simp [getAllLoop] at h
  | cons f rest ih =>
    intro vals r e h
    rw [getAllLoop] at h
    cases hg : env.fieldGet f l with
    | mk v oe =>
      cases oe with
      | some err =>
        rw [hg] at h
        simp only [Prod.mk.injEq, Option.some.injEq] at h
        refine ⟨[], f, rest, rfl, by simp, by rw [hg, ← h.2], by simp [h.1]⟩
      | none =>
        rw [hg] at h
        simp only [] at h
        obtain ⟨pre, f', post, h1, h2, h3, h4⟩ := ih _ _ _ h
        refine ⟨f :: pre, f', post, by simp [h1], ?_, h3, ?_⟩
        · intro g hgm
          rcases List.mem_cons.mp hgm with rfl | hgm
          · rw [hg]
          · exact h2 g hgm
        · rw [h4]; simp [hg]

/-- When the loop of `GetAll` ends without error, every field-level `Get`
succeeded and the list holds one value per Field, in order. -/
theorem getAllLoop_ok (env : Env) (l : Location) :
    ∀ (flds : List hl7.Field) (vals r : List Bytes),
      getAllLoop env l flds vals = (r, none) →
      (∀ g ∈ flds, (env.fieldGet g l).2 = none) ∧
        r = vals ++ flds.map (fun g => (env.fieldGet g l).1) := by
  intro flds
  induction flds with
  | nil => intro vals r h; simp [getAllLoop] at h; simp [h]
  | cons f rest ih =>
    intro vals r h
    rw [getAllLoop] at h
    cases hg : env.fieldGet f l with
    | mk v oe =>
      cases oe with
      | some err => rw [hg] at h; simp at h
      | none =>
        rw [hg] at h
        simp only [] at h
        obtain ⟨h1, h2⟩ := ih _ _ h
        refine ⟨?_, by rw [h2]; simp [hg]⟩
        intro g hgm
        rcases List.mem_cons.mp hgm with rfl | hgm
        · rw [hg]
        · exact h1 g hgm

theorem findField_filter_head (i : Int) (fs : List hl7.Field) :
    findField i fs = (fs.filter (fun fld => decide (fld.SeqNum = i))).head? := by
  induction fs with
  | nil => rfl
  | cons f r ih =>
    by_cases h : f.SeqNum = i
    · simp [findField, h]
    · simp [findField, h, ih]

/-! ## C13: what `GetAll` returns with an error -/

/-- C13, as amended. When `GetAll` returns an error, either no Field carries the
sequence, the error is "Field not found" and the list is empty, or the error
is that of the first matching Field whose field-level `Get` fails and the list
holds the values of the matching Fields before it, which are returned with the
error: `GetAll` stops at the first failure but keeps what it has gathered. -/
theorem GetAll_error_results (env : Env) (s : Segment) (l : Location) (e : Err)
    (h : (s.GetAll env l).2 = some e) :
    (s.Fields.filter (fun fld => decide (fld.SeqNum = l.FieldSeq)) = [] ∧
      e = Err.fieldNotFound ∧ (s.GetAll env l).1 = []) ∨
    (∃ pre f post,
      s.Fields.filter (fun fld => decide (fld.SeqNum = l.FieldSeq)) = pre ++ f :: post ∧
      (∀ g ∈ pre, (env.fieldGet g l).2 = none) ∧ (env.fieldGet f l).2 = some e ∧
      (s.GetAll env l).1 = pre.map (fun g => (env.fieldGet g l).1)) := by
  unfold Segment.GetAll at h ⊢
  by_cases hw : l.FieldSeq = -1
  · simp [hw] at h
  · simp only [if_neg hw] at h ⊢
    rw [AllFields_of_filter s l.FieldSeq _ rfl] at h ⊢
    cases hf : s.Fields.filter (fun fld => decide (fld.SeqNum = l.FieldSeq)) with
    | nil =>
      rw [hf] at h
      simp only [List.length_nil, if_true, Option.some.injEq] at h
      left
      exact ⟨rfl, h.symm, by simp⟩
    | cons f r =>
      rw [hf] at h
      simp only [List.length_cons, Nat.add_one_ne_zero, if_false] at h ⊢
      right
      obtain ⟨pre, f', post, h1, h2, h3, h4⟩ :=
        getAllLoop_error env l (f :: r) [] (getAllLoop env l (f :: r) []).1 e
          (by rw [← h])
      exact ⟨pre, f', post, h1, h2, h3, by simpa using h4⟩

/-- The segment parsed from `PID|a^b~c`, read at component 2 of sequence 1. -/
theorem GetAll_error_results_witness :
    (pidReps.GetAll specEnv (compLoc 1 2)).2 = some (Err.fieldLevel "Component not found") ∧
    ((pidReps.Fields.filter (fun fld => decide (fld.SeqNum = (compLoc 1 2).FieldSeq)) = [] ∧
      Err.fieldLevel "Component not found" = Err.fieldNotFound ∧
      (pidReps.GetAll specEnv (compLoc 1 2)).1 = []) ∨
    (∃ pre f post,
      pidReps.Fields.filter (fun fld => decide (fld.SeqNum = (compLoc 1 2).FieldSeq))
        = pre ++ f :: post ∧
      (∀ g ∈ pre, (specEnv.fieldGet g (compLoc 1 2)).2 = none) ∧
      (specEnv.fieldGet f (compLoc 1 2)).2 = some (Err.fieldLevel "Component not found") ∧
      (pidReps.GetAll specEnv (compLoc 1 2)).1
        = pre.map (fun g => (specEnv.fieldGet g (compLoc 1 2)).1))) :=
  ⟨by decide, GetAll_error_results specEnv pidReps (compLoc 1 2) _ (by decide)⟩

/-- C13 fails as stated. `PID|a^b~c` parses into `PID` at sequence 0 and the two
repetitions `a^b` and `c` at sequence 1. Reading component 2 of sequence 1, the
field-level `Get` gives `b` on the first repetition and fails on the second,
which has one component: `GetAll` returns the error together with the list
holding `b`, not an empty list. -/
theorem GetAll_error_results_fails :
    (fresh (ascii "PID|a^b~c")).Parse specEnv stdSeps [] = Outcome.done (pidReps, none) ∧
    pidReps.Fields.map (fun f => (f.Value, f.SeqNum)) =
      [(ascii "PID", 0), (ascii "a^b", 1), (ascii "c", 1)] ∧
    specEnv.fieldGet (parsedField specEnv stdSeps (ascii "a^b") 1) (compLoc 1 2) =
      (ascii "b", none) ∧
    specEnv.fieldGet (parsedField specEnv stdSeps (ascii "c") 1) (compLoc 1 2) =
      ([], some (Err.fieldLevel "Component not found")) ∧
    pidReps.GetAll specEnv (compLoc 1 2) =
      ([ascii "b"], some (Err.fieldLevel "Component not found")) := by
  decide

/-! ## C14: `Get` and `GetAll` -/

/-- C14, as amended. When `GetAll` returns no error, its list is not empty, `Get`
returns no error either and its value is the first element of that list; and
when the location does not address the whole segment, the list has one value
per Field carrying the location's field sequence. -/
theorem Get_is_first_of_GetAll (env : Env) (s : Segment) (l : Location)
    (h : (s.GetAll env l).2 = none) :
    ∃ v rest, (s.GetAll env l).1 = v :: rest ∧ s.Get env l = (v, none) ∧
      (l.FieldSeq ≠ -1 →
        (v :: rest).length =
          (s.Fields.filter (fun fld => decide (fld.SeqNum = l.FieldSeq))).length) := by
  unfold Segment.GetAll at h ⊢
  unfold Segment.Get
  by_cases hw : l.FieldSeq = -1
  · simp [hw]
  · simp only [if_neg hw] at h ⊢
    rw [AllFields_of_filter s l.FieldSeq _ rfl] at h ⊢
    rw [findField_filter_head]
    cases hf : s.Fields.filter (fun fld => decide (fld.SeqNum = l.FieldSeq)) with
    | nil => rw [hf] at h; simp at h
    | cons f r =>
      rw [hf] at h
      simp only [List.length_cons, Nat.add_one_ne_zero, if_false, List.head?_cons] at h ⊢
      obtain ⟨hall, hr⟩ := getAllLoop_ok env l (f :: r) [] (getAllLoop env l (f :: r) []).1
        (by rw [← h])
      refine ⟨(env.fieldGet f l).1, r.map (fun g => (env.fieldGet g l).1), by simpa using hr,
        ?_, fun _ => by simp⟩
      have := hall f (by simp)
      exact Prod.ext rfl this

/-- The segment parsed from `PID|a^b~c`, read at sequence 1, which two Fields
carry. -/
theorem Get_is_first_of_GetAll_witness :
    (pidReps.GetAll specEnv (fieldLoc 1)).2 = none ∧
    pidReps.GetAll specEnv (fieldLoc 1) = ([ascii "a^b", ascii "c"], none) ∧
    pidReps.Get specEnv (fieldLoc 1) = (ascii "a^b", none) ∧
    ∃ v rest, (pidReps.GetAll specEnv (fieldLoc 1)).1 = v :: rest ∧
      pidReps.Get specEnv (fieldLoc 1) = (v, none) ∧
      ((fieldLoc 1).FieldSeq ≠ -1 →
        (v :: rest).length =
          (pidReps.Fields.filter (fun fld => decide (fld.SeqNum = (fieldLoc 1).FieldSeq))).length) :=
  ⟨by decide, by decide, by decide,
    Get_is_first_of_GetAll specEnv pidReps (fieldLoc 1) (by decide)⟩

/-- C14 fails as stated, in its last clause. With the whole-segment location
(field sequence -1) `GetAll` on the segment parsed from `PID|a^b~c` returns no
error and a list of one element, the raw Value, while no Field of the segment
carries the sequence -1. -/
theorem Get_is_first_of_GetAll_fails :
    pidReps.GetAll specEnv (fieldLoc (-1)) = ([ascii "PID|a^b~c"], none) ∧
    (pidReps.GetAll specEnv (fieldLoc (-1))).1.length = 1 ∧
    (pidReps.Fields.filter (fun fld => decide (fld.SeqNum = (fieldLoc (-1)).FieldSeq))).length
      = 0 := by
  decide

/-! ## C15: Whole-segment reads -/

/-- C15. Whole-segment reads bypass the tree: for every segment, whatever its
Fields, `Get` with a location whose field sequence is -1 returns the raw Value
with no error, and `GetAll` with the same location returns the one-element
list holding that Value, with no error. -/
theorem whole_segment_reads (env : Env) (s : Segment) (l : Location) (h : l.FieldSeq = -1) :
    s.Get env l = (s.Value, none) ∧ s.GetAll env l = ([s.Value], none) := by
  simp [Segment.Get, Segment.GetAll, h]

theorem whole_segment_reads_witness :
    (fieldLoc (-1)).FieldSeq = -1 ∧
    (fresh (ascii "PID|a")).Get specEnv (fieldLoc (-1)) = (ascii "PID|a", none) ∧
    (fresh (ascii "PID|a")).GetAll specEnv (fieldLoc (-1)) = ([ascii "PID|a"], none) :=
  ⟨rfl, whole_segment_reads specEnv (fresh (ascii "PID|a")) (fieldLoc (-1)) rfl⟩

/-! ## Lemmas for C16: the final Field -/

/-- Whenever the loop returns, the last Field of the segment is the one parsed
from a slice of the backing array, taken at the end of the input. -/
theorem scan_last_field (env : Env) (seps : Delimeters) (m : Bool) (buf : Bytes) :
    ∀ (fuel : Nat) (rest : Bytes) (i ii : Nat) (seq : Int) (s t : Segment) (e : Option Err),
      i ≤ ii → scan env seps m buf fuel rest i ii seq s = Outcome.done (t, e) →
      ∃ init lo hi v n, slice buf lo hi = some v ∧
        t.Fields = init ++ [parsedField env seps v n] := by
  intro fuel
  induction fuel with
  | zero => intro rest i ii seq s t e _ h; simp [scan] at h
  | succ fuel ih =>
    intro rest i ii seq s t e hi h
    rw [scan_succ] at h
    have hgt : ii + 1 > i := by omega
    cases hs : slice buf i (ii + 1 - 1) with
    | none =>
      rw [hs] at h
      simp only [hgt, if_true] at h
      split_ifs at h
      all_goals exact ih _ _ _ _ _ _ _ (by omega) h
    | some v =>
      rw [hs] at h
      simp only [hgt, if_true] at h
      split_ifs at h
      · simp only [Outcome.done.injEq, Prod.mk.injEq] at h
        exact ⟨s.Fields, i, ii + 1 - 1, v, seq, hs, by rw [← h.1]; rfl⟩
      all_goals exact ih _ _ _ _ _ _ _ (by omega) h

/-- Whenever `Parse` returns on a value of 3 bytes or more, the last Field of the
segment is the one parsed from a slice of the backing array. -/
theorem Parse_last_field (env : Env) (seps : Delimeters) (spare : Bytes) (s t : Segment)
    (e : Option Err) (h3 : 3 ≤ s.Value.length)
    (h : s.Parse env seps spare = Outcome.done (t, e)) :
    ∃ init lo hi v n, slice (s.Value ++ spare) lo hi = some v ∧
      t.Fields = init ++ [parsedField env seps v n] := by
  rw [Parse_eq_scan env seps spare s h3] at h
  exact scan_last_field env seps _ _ _ _ _ _ _ s t e (le_refl _) h

theorem bytesJoin_snoc (sep a : Bytes) :
    ∀ (xs : List Bytes), xs ≠ [] → bytesJoin sep (xs ++ [a]) = bytesJoin sep xs ++ sep ++ a := by
  intro xs
  induction xs with
  | nil => intro h; exact absurd rfl h
  | cons x r ih =>
    intro _
    cases r with
    | nil => simp [bytesJoin]
    | cons y r' =>
      have := ih (by simp)
      simp only [List.cons_append] at this ⊢
      simp only [bytesJoin] at this ⊢
      rw [this]
      simp

theorem bytesJoin_snoc_append (sep a b : Bytes) :
    ∀ (xs : List Bytes), bytesJoin sep (xs ++ [a ++ b]) = bytesJoin sep (xs ++ [a]) ++ b := by
  intro xs
  by_cases h : xs = []
  · subst h; simp [bytesJoin]
  · rw [bytesJoin_snoc sep (a ++ b) xs h, bytesJoin_snoc sep a xs h]
    simp

/-- The trailing piece of a layout is the end of the raw text, behind the last
delimiter the layout writes. -/
theorem layout_trailing (seps : Delimeters) (fs : List (List Bytes)) (ps : List Bytes)
    (p : Bytes) :
    (fs = [] → ps = [] → layout seps (fs ++ [ps ++ [p]]) = p) ∧
    (fs ≠ [] → ps = [] → layout seps (fs ++ [ps ++ [p]]) = layout seps fs ++ [seps.Field] ++ p) ∧
    (ps ≠ [] →
      layout seps (fs ++ [ps ++ [p]]) = layout seps (fs ++ [ps]) ++ [seps.Repetition] ++ p) := by
  refine ⟨?_, ?_, ?_⟩
  · rintro rfl rfl
    simp [layout, bytesJoin]
  · rintro h rfl
    simp only [layout, List.map_append, List.map_cons, List.map_nil, List.nil_append]
    rw [bytesJoin_snoc _ _ _ (by simpa using h)]
    simp [bytesJoin]
  · intro h
    simp only [layout, List.map_append, List.map_cons, List.map_nil]
    rw [bytesJoin_snoc _ _ _ h, List.append_assoc, bytesJoin_snoc_append, List.append_assoc]

theorem expected_append (env : Env) (seps : Delimeters) :
    ∀ (f1 f2 : List (List Bytes)) (n : Int),
      expected env seps n (f1 ++ f2) =
        expected env seps n f1 ++ expected env seps (n + f1.length) f2 := by
  intro f1
  induction f1 with
  | nil => intro f2 n; simp [expected]
  | cons ps r ih =>
    intro f2 n
    have e : n + 1 + (r.length : Int) = n + ((ps :: r).length : Int) := by
      simp only [List.length_cons]; push_cast; ring
    have h := ih f2 (n + 1)
    rw [e] at h
    simp only [List.cons_append, expected, List.append_assoc]
    rw [← h]
    rfl

theorem expected_length (env : Env) (seps : Delimeters) :
    ∀ (fields : List (List Bytes)) (n : Int),
      (expected env seps n fields).length = (fields.map List.length).sum := by
  intro fields
  induction fields with
  | nil => intro n; simp [expected]
  | cons ps r ih => intro n; simp [expected, ih]

/-! ## C16: the final Field -/

/-- C16, as amended. Final-field flush: at the end of the input `Parse` appends
the Field parsed from the trailing slice whether that slice is empty or not.
For every well-formed non-header value of 3 bytes or more, the layout of the
fields `fs` followed by a last field whose pieces are `ps` and then `p`,
`Parse` on a fresh segment returns no error and appends one Field per piece, in
order; the last Field is the one parsed from the trailing piece `p`, at the
sequence number of the last field, and `p` is the end of the value: the whole
value when there is no other piece, else what stands behind the last field
delimiter (`ps` empty) or the last repetition delimiter. In particular, with
`ps` and `p` empty and `fs` not, the value is the layout of `fs` followed by
the field delimiter (as in `PID|`) and a trailing empty Field is appended at
the next sequence number, so that the number of Fields is the number of pieces
of `fs` plus one. Behind this: the turn of the loop that reads the end of the
input, the loop variables being `i ≤ ii`, appends the Field parsed from the
slice between `i` and `ii` at the current sequence number, also when `i = ii`
(the test `ii > i` comes after `ii++`); so whenever `Parse` returns on any
value of 3 bytes or more, its Fields end with a Field parsed from a slice of
the backing array. -/
theorem Parse_final_flush (env : Env) (seps : Delimeters) (spare : Bytes)
    (fs : List (List Bytes)) (ps : List Bytes) (p : Bytes)
    (hF : 2 ≤ (fs ++ [ps ++ [p]]).length → plain env seps seps.Field)
    (hfs : ∀ qs ∈ fs ++ [ps ++ [p]], qs ≠ [] ∧
      (∀ q ∈ qs, atom seps q = true ∧ ∀ b ∈ q, plain env seps b) ∧
      (2 ≤ qs.length → plain env seps seps.Repetition ∧ seps.Repetition ≠ seps.Field))
    (h3 : 3 ≤ (layout seps (fs ++ [ps ++ [p]])).length)
    (hmsh : (layout seps (fs ++ [ps ++ [p]])).take 3 ≠ mshCode) :
    (∃ t, (fresh (layout seps (fs ++ [ps ++ [p]]))).Parse env seps spare
        = Outcome.done (t, none) ∧
      t.Fields = expected env seps 0 fs ++ ps.map (fun q => parsedField env seps q fs.length)
        ++ [parsedField env seps p fs.length] ∧
      t.Fields.length = (fs.map List.length).sum + ps.length + 1) ∧
    (fs = [] → ps = [] → layout seps (fs ++ [ps ++ [p]]) = p) ∧
    (fs ≠ [] → ps = [] → layout seps (fs ++ [ps ++ [p]]) = layout seps fs ++ [seps.Field] ++ p) ∧
    (ps ≠ [] →
      layout seps (fs ++ [ps ++ [p]]) = layout seps (fs ++ [ps]) ++ [seps.Repetition] ++ p) ∧
    (∀ (m : Bool) (buf : Bytes) (fuel i ii : Nat) (seq : Int) (s : Segment) (v : Bytes),
      i ≤ ii → slice buf i ii = some v →
      scan env seps m buf (fuel + 1) [] i ii seq s =
        Outcome.done (s.appendParsed env seps v seq, none)) ∧
    (∀ (s t : Segment) (sp : Bytes) (e : Option Err), 3 ≤ s.Value.length →
      s.Parse env seps sp = Outcome.done (t, e) →
      ∃ init lo hi v n, slice (s.Value ++ sp) lo hi = some v ∧
        t.Fields = init ++ [parsedField env seps v n]) := by
  have key := Parse_layout env seps spare (fs ++ [ps ++ [p]]) (by simp) hF hfs h3 hmsh
  obtain ⟨l1, l2, l3⟩ := layout_trailing seps fs ps p
  refine ⟨⟨_, key, ?_, ?_⟩, l1, l2, l3,
    fun m buf fuel i ii seq s v hi hv => scan_step_end env seps m buf fuel i ii seq s v hi hv,
    fun s t sp e h3' h => Parse_last_field env seps sp s t e h3' h⟩
  · simp [Segment.withMore, fresh, expected_append, expected]
  · simp [Segment.withMore, fresh, expected_append, expected, expected_length]
    omega

/-- The values `PID|`, with an empty trailing slice, and `PID|a~b`, with the
trailing slice `b`. -/
theorem Parse_final_flush_witness :
    (∃ t, (fresh (ascii "PID|")).Parse specEnv stdSeps [] = Outcome.done (t, none) ∧
      t.Fields = [parsedField specEnv stdSeps (ascii "PID") 0,
                  parsedField specEnv stdSeps [] 1] ∧
      t.Fields.length = 2) ∧
    (∃ t, (fresh (ascii "PID|a~b")).Parse specEnv stdSeps [] = Outcome.done (t, none) ∧
      t.Fields = [parsedField specEnv stdSeps (ascii "PID") 0,
                  parsedField specEnv stdSeps (ascii "a") 1,
                  parsedField specEnv stdSeps (ascii "b") 1] ∧
      t.Fields.length = 3) :=
  ⟨(Parse_final_flush specEnv stdSeps [] [[ascii "PID"]] [] [] (by decide) (by decide)
      (by decide) (by decide)).1,
   (Parse_final_flush specEnv stdSeps [] [[ascii "PID"]] [ascii "a"] (ascii "b") (by decide)
      (by decide) (by decide) (by decide)).1⟩

/-- C16 fails as stated. `PID|` ends with an unescaped field delimiter and its
trailing slice is empty, yet `Parse` appends a second, empty Field at sequence
1; `PID|a|` likewise gets a third Field, empty, at sequence 2. -/
theorem Parse_trailing_field_delimiter_fails :
    (∃ t, (fresh (ascii "PID|")).Parse specEnv stdSeps [] = Outcome.done (t, none) ∧
      t.Fields.map (fun f => (f.Value, f.SeqNum)) = [(ascii "PID", 0), ([], 1)]) ∧
    (∃ t, (fresh (ascii "PID|a|")).Parse specEnv stdSeps [] = Outcome.done (t, none) ∧
      t.Fields.map (fun f => (f.Value, f.SeqNum)) = [(ascii "PID", 0), (ascii "a", 1), ([], 2)]) :=
  ⟨⟨_, rfl, by decide⟩, ⟨_, rfl, by decide⟩⟩

/-! ## C17: a final escape character -/

/-- C17, at its failing input. On `PID|a\`, whose last byte is a lone escape
character, the escape branch moves `ii` one past the bytes read: the final
slice is `s.Value[4:7]` on a value of 6 bytes. With one spare byte `X` behind
the value in the backing array `Parse` returns a Field `a\X` whose last byte
lies beyond the input; with no spare capacity it panics. -/
theorem Parse_reads_beyond_input :
    (∃ t, (fresh (ascii "PID|a\\")).Parse specEnv stdSeps (ascii "X") = Outcome.done (t, none) ∧
      t.Fields.map (fun f => f.Value) = [ascii "PID", ascii "a\\X"]) ∧
    (fresh (ascii "PID|a\\")).Parse specEnv stdSeps [] = Outcome.panic ∧
    slice (ascii "PID|a\\" ++ ascii "X") 4 7 = some (ascii "a\\X") ∧
    slice (ascii "PID|a\\") 4 7 = none :=
  ⟨⟨_, rfl, by decide⟩, by decide, by decide, by decide⟩

/-! ## Lemmas for C18: the restricted round trip -/

theorem atom_cons_plain (seps : Delimeters) (c : Nat) (a : Bytes) (hF : c ≠ seps.Field)
    (hR : c ≠ seps.Repetition) (hE : c ≠ seps.Escape) :
    atom seps (c :: a) = atom seps a := by
  rw [atom.eq_def]
  simp [hF, hR, hE]

theorem atom_cons_escape (seps : Delimeters) (c2 : Nat) (a : Bytes)
    (hF : seps.Escape ≠ seps.Field) (hR : seps.Escape ≠ seps.Repetition) :
    atom seps (seps.Escape :: c2 :: a) = atom seps a := by
  rw [atom.eq_def]
  simp [hF, hR]

theorem bytesJoin_cons_head (sep : Bytes) (c : Nat) (a : Bytes) (as : List Bytes) :
    bytesJoin sep ((c :: a) :: as) = c :: bytesJoin sep (a :: as) := by
  cases as with
  | nil => simp [bytesJoin]
  | cons b r => simp [bytesJoin]

theorem getLast_cons_of_ne_nil (c : Nat) (t : Bytes) (h : t ≠ []) :
    (c :: t).getLast? = t.getLast? := by
  cases t with
  | nil => exact absurd rfl h
  | cons d r => simp [List.getLast?_cons_cons]

/-- A value with no unescaped repetition delimiter and no escape character at
its end is a list of atoms joined by the field delimiter. -/
theorem atoms_of_value (seps : Delimeters) (hEF : seps.Escape ≠ seps.Field)
    (hER : seps.Escape ≠ seps.Repetition) :
    ∀ (n : Nat) (x : Bytes), x.length ≤ n →
      noUnescapedRepetition seps x = true → x.getLast? ≠ some seps.Escape →
      ∃ a as, x = bytesJoin [seps.Field] (a :: as) ∧ ∀ p ∈ a :: as, atom seps p = true := by
  intro n
  induction n with
  | zero =>
    intro x hn _ _
    have : x = [] := List.length_eq_zero.mp (by omega)
    subst this
    exact ⟨[], [], rfl, by simp [atom]⟩
  | succ n ih =>
    intro x hn hrep hlast
    cases x with
    | nil => exact ⟨[], [], rfl, by simp [atom]⟩
    | cons c t =>
      rw [noUnescapedRepetition.eq_def] at hrep
      simp only [] at hrep
      by_cases hE : c = seps.Escape
      · rw [if_pos hE] at hrep
        cases t with
        | nil => subst hE; simp at hlast
        | cons c2 t2 =>
          simp only [] at hrep
          have hl2 : t2.getLast? ≠ some seps.Escape := by
            cases t2 with
            | nil => simp
            | cons d r =>
              rw [getLast_cons_of_ne_nil c _ (by simp),
                getLast_cons_of_ne_nil c2 _ (by simp)] at hlast
              exact hlast
          obtain ⟨a, as, hx, hat⟩ := ih t2 (by simp at hn; omega) hrep hl2
          subst hE
          refine ⟨seps.Escape :: c2 :: a, as, ?_, ?_⟩
          · rw [bytesJoin_cons_head, bytesJoin_cons_head, ← hx]
          · intro p hp
            rcases List.mem_cons.mp hp with rfl | hp
            · rw [atom_cons_escape seps c2 a hEF hER]; exact hat a (by simp)
            · exact hat p (List.mem_cons_of_mem _ hp)
      · rw [if_neg hE] at hrep
        by_cases hR : c = seps.Repetition
        · simp [hR] at hrep
        · rw [if_neg hR] at hrep
          have hl : t.getLast? ≠ some seps.Escape := by
            cases t with
            | nil => simp
            | cons d r =>
              rw [getLast_cons_of_ne_nil c _ (by simp)] at hlast
              exact hlast
          obtain ⟨a, as, hx, hat⟩ := ih t (by simp at hn; omega) hrep hl
          by_cases hF : c = seps.Field
          · refine ⟨[], a :: as, ?_, ?_⟩
            · simp [bytesJoin, hx, hF]
            · intro p hp
              rcases List.mem_cons.mp hp with rfl | hp
              · simp [atom]
              · exact hat p hp
          · refine ⟨c :: a, as, ?_, ?_⟩
            · rw [bytesJoin_cons_head, ← hx]
            · intro p hp
              rcases List.mem_cons.mp hp with rfl | hp
              · rw [atom_cons_plain seps c a hF hR hE]; exact hat a (by simp)
              · exact hat p (List.mem_cons_of_mem _ hp)

/-! ## C18: the restricted round trip -/

/-- C18. Restricted round trip: let the escape character differ from the field
and repetition delimiters. For every value `x` of at least 3 bytes that does
not start with `MSH`, consists of plain bytes (ASCII, not NUL, and not the
end-of-message byte when the line-feed-termination flag is set), holds no unescaped repetition delimiter and does not end
with the escape character (every escape character is followed by another
byte), `Parse` on a fresh segment returns no error and `encode` of the result
is exactly `x`, the field-level parse leaving each Field's Value unchanged.
Empty fields and a trailing field delimiter are included. -/
theorem Parse_encode_restricted_round_trip (env : Env) (seps : Delimeters) (spare x : Bytes)
    (hV : ∀ sp f, (env.fieldParse sp f).Value = f.Value)
    (hEF : seps.Escape ≠ seps.Field) (hER : seps.Escape ≠ seps.Repetition)
    (hplain : ∀ b ∈ x, plain env seps b)
    (h3 : 3 ≤ x.length) (hmsh : x.take 3 ≠ mshCode)
    (hrep : noUnescapedRepetition seps x = true)
    (hesc : x.getLast? ≠ some seps.Escape) :
    ∃ t, (fresh x).Parse env seps spare = Outcome.done (t, none) ∧ t.encode seps = x := by
  obtain ⟨a, as, hx, hat⟩ := atoms_of_value seps hEF hER x.length x (le_refl _) hrep hesc
  subst hx
  have hFp : 2 ≤ (a :: as).length → plain env seps seps.Field :=
    fun h => hplain _ (sep_mem_bytesJoin seps.Field (a :: as) h)
  have key := Parse_layout env seps spare ((a :: as).map fun p => [p]) (by simp)
    (by simpa using hFp)
    (by
      intro ps hps
      obtain ⟨p, hp, rfl⟩ := List.mem_map.mp hps
      refine ⟨by simp, ?_, by simp⟩
      intro q hq
      simp at hq
      subst hq
      exact ⟨hat q hp, fun b hb => hplain b (mem_bytesJoin_of_mem _ b (a :: as) q hp hb)⟩)
    (by rw [layout_singletons]; exact h3) (by rw [layout_singletons]; exact hmsh)
  rw [layout_singletons] at key
  refine ⟨_, key, ?_⟩
  rw [encode_eq]
  simp only [Segment.withMore, fresh, List.nil_append]
  rw [expected_singletons_values env hV seps (a :: as) 0]
  apply bytesJoin_sep_irrelevant
  intro h
  simp [runeBytes, (hFp h).1]

theorem Parse_encode_restricted_round_trip_witness :
    ∃ t, (fresh (ascii "PID||a\\~b\\|c|")).Parse specEnv stdSeps [] = Outcome.done (t, none) ∧
      t.encode stdSeps = ascii "PID||a\\~b\\|c|" :=
  Parse_encode_restricted_round_trip specEnv stdSeps [] (ascii "PID||a\\~b\\|c|")
    (fun _ _ => rfl) (by decide) (by decide) (by decide) (by decide) (by decide) (by decide)
    (by decide)

/-! ## Lemmas for C19: every sequence number up to `maxSeq` is present -/

theorem Set_eq_gapFilled (env : Env) (s : Segment) (l : Location) (val : Bytes)
    (seps : Delimeters) (h : l.FieldSeq ≠ -1) :
    s.Set env l val seps =
      match findField l.FieldSeq (gapFilled s l.FieldSeq).Fields with
      | none => (gapFilled s l.FieldSeq, some Err.fieldNotFound)
      | some fld =>
        match (env.fieldSet fld l val seps).2 with
        | some err =>
          ({ gapFilled s l.FieldSeq with
              Fields := replaceFirst l.FieldSeq (env.fieldSet fld l val seps).1
                (gapFilled s l.FieldSeq).Fields }, some err)
        | none =>
          ({ gapFilled s l.FieldSeq with
              Fields := replaceFirst l.FieldSeq (env.fieldSet fld l val seps).1
                (gapFilled s l.FieldSeq).Fields
              Value := Segment.encode seps { gapFilled s l.FieldSeq with
                Fields := replaceFirst l.FieldSeq (env.fieldSet fld l val seps).1
                  (gapFilled s l.FieldSeq).Fields } }, none) := by
  unfold Segment.Set gapFilled
  rw [if_neg h]

theorem coveredBelow_appendParsed (env : Env) (seps : Delimeters) {seq : Int} {s : Segment}
    (hS : ∀ sp f, (env.fieldParse sp f).SeqNum = f.SeqNum) (v : Bytes)
    (h : CoveredBelow seq s) : CoveredBelow (seq + 1) (s.appendParsed env seps v seq) := by
  obtain ⟨h0, h1, h2⟩ := h
  refine ⟨h0, by simp only [Segment.appendParsed]; omega, ?_⟩
  intro k hk hk'
  by_cases hks : k = seq
  · exact ⟨parsedField env seps v seq, by simp [Segment.appendParsed, parsedField],
      by simp [parsedField, hS, hks]⟩
  · obtain ⟨f, hf, hfk⟩ := h2 k hk (by omega)
    exact ⟨f, by simp [Segment.appendParsed, hf], hfk⟩

theorem coveredBelow_appendParsed_same (env : Env) (seps : Delimeters) {seq : Int}
    {s : Segment} (v : Bytes) (h : CoveredBelow seq s) : CoveredBelow seq (s.appendParsed env seps v seq) := by
  obtain ⟨h0, h1, h2⟩ := h
  refine ⟨h0, h1, ?_⟩
  intro k hk hk'
  obtain ⟨f, hf, hfk⟩ := h2 k hk hk'
  exact ⟨f, by simp [Segment.appendParsed, hf], hfk⟩

theorem coveredBelow_forceField {seq : Int} {s : Segment} (v : Bytes)
    (h : CoveredBelow seq s) : CoveredBelow (seq + 1) (s.forceField v seq) := by
  obtain ⟨h0, h1, h2⟩ := h
  refine ⟨?_, ?_, ?_⟩
  · simp only [Segment.forceField]; split_ifs <;> omega
  · simp only [Segment.forceField]; split_ifs <;> omega
  · intro k hk hk'
    by_cases hks : k = seq
    · exact ⟨forcedField v seq, by simp [Segment.forceField, forcedField],
        by simp [forcedField, hks]⟩
    · obtain ⟨f, hf, hfk⟩ := h2 k hk (by omega)
      exact ⟨f, by simp [Segment.forceField, hf], hfk⟩

/-- When the loop returns from a covered state, every sequence number up to
`maxSeq` is carried by a Field. -/
theorem scan_covered (env : Env) (hS : ∀ sp f, (env.fieldParse sp f).SeqNum = f.SeqNum)
    (seps : Delimeters) (m : Bool) (buf : Bytes) :
    ∀ (fuel : Nat) (rest : Bytes) (i ii : Nat) (seq : Int) (s t : Segment) (e : Option Err),
      i ≤ ii → 0 ≤ seq → CoveredBelow seq s →
      scan env seps m buf fuel rest i ii seq s = Outcome.done (t, e) → Covered t := by
  intro fuel
  induction fuel with
  | zero => intro rest i ii seq s t e _ _ _ h; simp [scan] at h
  | succ fuel ih =>
    intro rest i ii seq s t e hi hseq hc h
    rw [scan_succ] at h
    have hgt : ii + 1 > i := by omega
    cases hs : slice buf i (ii + 1 - 1) with
    | none =>
      rw [hs] at h
      simp only [hgt, if_true] at h
      split_ifs at h
      all_goals exact ih _ _ _ _ _ _ _ (by omega) hseq hc h
    | some v =>
      rw [hs] at h
      simp only [hgt, if_true] at h
      by_cases hterm : (ReadRune rest).1 = eof ∨
          ((ReadRune rest).1 = env.endMsg ∧ seps.LFTermMsg = true)
      · rw [if_pos hterm] at h
        simp only [Outcome.done.injEq, Prod.mk.injEq] at h
        have hc' := coveredBelow_appendParsed env seps hS v hc
        have hmax : (s.appendParsed env seps v seq).maxSeq ≤ seq := hc.2.1
        rw [h.1] at hc' hmax
        exact ⟨hc'.1, fun k hk hk' => hc'.2.2 k hk (by omega)⟩
      rw [if_neg hterm] at h
      by_cases c1 : m = true ∧ seq = 2 ∧ (ReadRune rest).1 = seps.Repetition
      · rw [if_pos c1] at h; exact ih _ _ _ _ _ _ _ (by omega) hseq hc h
      rw [if_neg c1] at h
      by_cases c2 : m = true ∧ seq = 2 ∧ (ReadRune rest).1 = seps.Escape
      · rw [if_pos c2] at h; exact ih _ _ _ _ _ _ _ (by omega) hseq hc h
      rw [if_neg c2] at h
      by_cases c3 : (ReadRune rest).1 = seps.Field
      · rw [if_pos c3] at h
        have hc1 : CoveredBelow (seq + 1) (if m = true ∧ seq = 2 then s.forceField v seq
            else s.appendParsed env seps v seq) := by
          split_ifs
          · exact coveredBelow_forceField v hc
          · exact coveredBelow_appendParsed env seps hS v hc
        by_cases c4 : m = true ∧ seq + 1 = 1
        · rw [if_pos c4] at h
          exact ih _ _ _ _ _ _ _ (le_refl _) (by omega) (coveredBelow_forceField _ hc1) h
        · rw [if_neg c4] at h
          exact ih _ _ _ _ _ _ _ (le_refl _) (by omega) hc1 h
      rw [if_neg c3] at h
      by_cases c5 : (ReadRune rest).1 = seps.Repetition
      · rw [if_pos c5] at h
        exact ih _ _ _ _ _ _ _ (le_refl _) hseq (coveredBelow_appendParsed_same env seps v hc) h
      rw [if_neg c5] at h
      by_cases c6 : (ReadRune rest).1 = seps.Escape
      · rw [if_pos c6] at h; exact ih _ _ _ _ _ _ _ (by omega) hseq hc h
      · rw [if_neg c6] at h; exact ih _ _ _ _ _ _ _ (by omega) hseq hc h


/-- After a `Parse` that returns on a fresh segment, every sequence number up to
`maxSeq` is carried by a Field. -/
theorem Parse_covered (env : Env) (hS : ∀ sp f, (env.fieldParse sp f).SeqNum = f.SeqNum)
    (seps : Delimeters) (spare v : Bytes) (t : Segment)
    (h : (fresh v).Parse env seps spare = Outcome.done (t, none)) : Covered t := by
  by_cases h3 : (fresh v).Value.length < 3
  · rw [Parse_short env seps spare _ h3] at h
    simp at h
  · rw [Parse_eq_scan env seps spare _ (by omega)] at h
    exact scan_covered env hS seps _ _ _ _ _ _ _ _ t none (le_refl _) (le_refl _)
      ⟨le_refl _, le_refl _, fun k hk hk' => by omega⟩ h

theorem covered_forceGap : ∀ (n : Nat) (start : Int) (s : Segment),
    Covered s → start = s.maxSeq + 1 →
    Covered (forceGap n start s) ∧ (forceGap n start s).maxSeq = s.maxSeq + n := by
  intro n
  induction n with
  | zero => intro start s h _; exact ⟨h, by simp [forceGap]⟩
  | succ n ih =>
    intro start s h hst
    have hm : (s.forceField [] start).maxSeq = start := by
      simp only [Segment.forceField]; split_ifs <;> omega
    have hc : Covered (s.forceField [] start) := by
      refine ⟨by rw [hm]; have := h.1; omega, ?_⟩
      intro k hk hk'
      rw [hm] at hk'
      by_cases hks : k = start
      · exact ⟨forcedField [] start, by simp [Segment.forceField, forcedField],
          by simp [forcedField, hks]⟩
      · obtain ⟨f, hf, hfk⟩ := h.2 k hk (by omega)
        exact ⟨f, by simp [Segment.forceField, hf], hfk⟩
    obtain ⟨h1, h2⟩ := ih (start + 1) (s.forceField [] start) hc (by rw [hm])
    refine ⟨h1, ?_⟩
    show (forceGap n (start + 1) (s.forceField [] start)).maxSeq = _
    rw [h2, hm, hst]
    push_cast
    ring

theorem covered_gapFilled (s : Segment) (t : Int) (h : Covered s) :
    Covered (gapFilled s t) ∧ (0 ≤ t → t ≤ (gapFilled s t).maxSeq) := by
  unfold gapFilled
  split_ifs with hlt
  · obtain ⟨h1, h2⟩ := covered_forceGap (t - s.maxSeq).toNat (s.maxSeq + 1) s h rfl
    refine ⟨h1, fun _ => ?_⟩
    rw [h2, Int.toNat_of_nonneg (by omega)]
    omega
  · exact ⟨h, fun _ => by omega⟩

theorem replaceFirst_seq (i : Int) (g : hl7.Field) (hg : g.SeqNum = i) (k : Int) :
    ∀ (fs : List hl7.Field), (∃ f ∈ fs, f.SeqNum = k) →
      ∃ f ∈ replaceFirst i g fs, f.SeqNum = k := by
  intro fs
  induction fs with
  | nil => intro h; simp at h
  | cons a r ih =>
    rintro ⟨f, hf, hfk⟩
    by_cases ha : a.SeqNum = i
    · simp only [replaceFirst, if_pos ha]
      rcases List.mem_cons.mp hf with rfl | hf
      · exact ⟨g, by simp, by rw [hg, ← ha, hfk]⟩
      · exact ⟨f, by simp [hf], hfk⟩
    · simp only [replaceFirst, if_neg ha]
      rcases List.mem_cons.mp hf with rfl | hf
      · exact ⟨f, by simp, hfk⟩
      · obtain ⟨f', hf', hfk'⟩ := ih ⟨f, hf, hfk⟩
        exact ⟨f', by simp [hf'], hfk'⟩

/-- `Set` keeps the coverage of the sequence numbers, the field-level write
keeping the SeqNum of the Field it is given. -/
theorem covered_Set (env : Env)
    (hW : ∀ f l val sp, (env.fieldSet f l val sp).1.SeqNum = f.SeqNum)
    (s : Segment) (l : Location) (val : Bytes) (seps : Delimeters) (h : Covered s) :
    Covered (s.Set env l val seps).1 := by
  by_cases hw : l.FieldSeq = -1
  · simpa [Segment.Set, hw] using h
  · rw [Set_eq_gapFilled env s l val seps hw]
    have hg := (covered_gapFilled s l.FieldSeq h).1
    cases hf : findField l.FieldSeq (gapFilled s l.FieldSeq).Fields with
    | none => exact hg
    | some fld =>
      obtain ⟨pre, post, _, hseq, _⟩ := findField_some _ _ _ hf
      have hrep : ∀ k : Int, 0 ≤ k → k ≤ (gapFilled s l.FieldSeq).maxSeq →
          ∃ f ∈ replaceFirst l.FieldSeq (env.fieldSet fld l val seps).1
            (gapFilled s l.FieldSeq).Fields, f.SeqNum = k :=
        fun k hk hk' => replaceFirst_seq _ _ (by rw [hW, hseq]) k _ (hg.2 k hk hk')
      simp only []
      cases hs : (env.fieldSet fld l val seps).2 with
      | some err => exact ⟨hg.1, hrep⟩
      | none => exact ⟨hg.1, hrep⟩


theorem reachable_covered (env : Env)
    (hP : ∀ sp f, (env.fieldParse sp f).SeqNum = f.SeqNum)
    (hW : ∀ f l val sp, (env.fieldSet f l val sp).1.SeqNum = f.SeqNum)
    (s : Segment) (hr : Reachable env s) : Covered s := by
  induction hr with
  | parse seps spare v t h => exact Parse_covered env hP seps spare v t h
  | set s l val seps _ ih => exact covered_Set env hW s l val seps ih

theorem specFieldParse_seq (sp : Delimeters) (f : hl7.Field) :
    (specEnv.fieldParse sp f).SeqNum = f.SeqNum := rfl

theorem specFieldSet_seq (f : hl7.Field) (l : Location) (val : Bytes) (sp : Delimeters) :
    (specEnv.fieldSet f l val sp).1.SeqNum = f.SeqNum := by
  show (specFieldSet f l val sp).1.SeqNum = f.SeqNum
  unfold specFieldSet
  split_ifs <;> rfl

/-! ## C19: every sequence number up to `maxSeq` is present -/

/-- C19. Sequence coverage: on a segment obtained from a fresh one by a `Parse`
that returns no error, followed by any number of `Set` calls, the field-level
methods keeping the SeqNum of the Field they are given, every sequence number
`k` with `0 ≤ k ≤ maxSeq` is carried by a Field. Consequently a further `Set` at
a field sequence `≥ 0` finds a Field at its lookup, after the gap fill, and the
error it returns is the one of the field-level write, never "Field not found". -/
theorem Set_sequence_coverage (env : Env)
    (hP : ∀ sp f, (env.fieldParse sp f).SeqNum = f.SeqNum)
    (hW : ∀ f l val sp, (env.fieldSet f l val sp).1.SeqNum = f.SeqNum)
    (s : Segment) (hr : Reachable env s) :
    (∀ k : Int, 0 ≤ k → k ≤ s.maxSeq → ∃ f ∈ s.Fields, f.SeqNum = k) ∧
    ∀ (l : Location) (val : Bytes) (seps : Delimeters), 0 ≤ l.FieldSeq →
      ∃ fld, findField l.FieldSeq (gapFilled s l.FieldSeq).Fields = some fld ∧
        fld.SeqNum = l.FieldSeq ∧
        (s.Set env l val seps).2 = (env.fieldSet fld l val seps).2 := by
  have hc := reachable_covered env hP hW s hr
  refine ⟨hc.2, ?_⟩
  intro l val seps hl
  obtain ⟨hg, hle⟩ := covered_gapFilled s l.FieldSeq hc
  obtain ⟨f, hf, hfk⟩ := hg.2 l.FieldSeq hl (hle hl)
  cases hfind : findField l.FieldSeq (gapFilled s l.FieldSeq).Fields with
  | none => exact absurd hfk ((findField_none_iff _ _).mp hfind f hf)
  | some fld =>
    obtain ⟨pre, post, _, hseq, _⟩ := findField_some _ _ _ hfind
    refine ⟨fld, rfl, hseq, ?_⟩
    rw [Set_eq_gapFilled env s l val seps (by omega), hfind]
    simp only []
    cases hs : (env.fieldSet fld l val seps).2 <;> rfl

/-- The segment parsed from `PID|a|b`, then written at the sequences 7 and 1. -/
theorem Set_sequence_coverage_witness :
    Reachable specEnv ((pidAB.Set specEnv (fieldLoc 7) (ascii "v") stdSeps).1.Set specEnv
      (fieldLoc 1) (ascii "w") stdSeps).1 ∧
    ((pidAB.Set specEnv (fieldLoc 7) (ascii "v") stdSeps).1.Set specEnv
      (fieldLoc 1) (ascii "w") stdSeps).1.maxSeq = 7 ∧
    (∀ k : Int, 0 ≤ k → k ≤ ((pidAB.Set specEnv (fieldLoc 7) (ascii "v") stdSeps).1.Set specEnv
        (fieldLoc 1) (ascii "w") stdSeps).1.maxSeq →
      ∃ f ∈ ((pidAB.Set specEnv (fieldLoc 7) (ascii "v") stdSeps).1.Set specEnv
        (fieldLoc 1) (ascii "w") stdSeps).1.Fields, f.SeqNum = k) := by
  have hr : Reachable specEnv ((pidAB.Set specEnv (fieldLoc 7) (ascii "v") stdSeps).1.Set
      specEnv (fieldLoc 1) (ascii "w") stdSeps).1 :=
    Reachable.set _ _ _ _ (Reachable.set _ _ _ _
      (Reachable.parse stdSeps [] (ascii "PID|a|b") pidAB (by decide)))
  exact ⟨hr, by decide,
    (Set_sequence_coverage specEnv specFieldParse_seq specFieldSet_seq _ hr).1⟩

/-! ## C20: `forceField` -/

/-- C20. `forceField(val, seq)` appends exactly one Field at the end of Fields,
with SeqNum `seq`, Value `val`, one Component of Value `val` holding one
SubComponent of Value `val`; the earlier Fields and the segment's Value are
unchanged, and `maxSeq` becomes the larger of the old `maxSeq` and `seq`. -/
theorem forceField_appends_one (s : Segment) (val : Bytes) (seq : Int) :
    (s.forceField val seq).Fields =
      s.Fields ++ [{ Value := val, SeqNum := seq,
                     Components := [{ Value := val, SubComponents := [{ Value := val }] }] }] ∧
    (s.forceField val seq).Fields.length = s.Fields.length + 1 ∧
    (s.forceField val seq).Fields.take s.Fields.length = s.Fields ∧
    (s.forceField val seq).Value = s.Value ∧
    (s.forceField val seq).maxSeq = max s.maxSeq seq := by
  refine ⟨rfl, by simp [Segment.forceField], by simp [Segment.forceField], rfl, ?_⟩
  simp only [Segment.forceField]
  split_ifs with h
  · exact (max_eq_right (le_of_lt h)).symm
  · exact (max_eq_left (not_lt.mp h)).symm

end hl7
